import Mathlib

/-!
Verification development for the `valuator` spreadsheet core (Rust sources
under `src/src-tauri/src/`).  The data model (`Val`, `Cell`), the addressing
helpers (`handle.rs`), the backtracking parser (`parser.rs`), the evaluator
(`eval.rs`) and the tile / dependency-graph layer (`tile.rs`, `board.rs`)
are shallowly embedded below.  Rust machine integers are modelled as
`ℕ`/`ℤ` with explicit wrapping where the code relies on it; `rust_decimal`
values are modelled as `ℚ` (exact base-10 arithmetic; the claims never
exercise the 96-bit mantissa bound); `f64` payloads are carried as `ℚ`
because no claim performs float arithmetic.  Fallible Rust code (panics:
out-of-range indexing, `unwrap`, `panic!`) is modelled with `Option`,
`none` marking a panic.
-/

set_option maxRecDepth 100000

namespace Valuator

/-! ### Machine-integer helpers -/

def I64_MIN : ℤ := -(2 ^ 63)

def I64_MAX : ℤ := 2 ^ 63 - 1

/-- Truncation of a rational toward zero (the behaviour of
`rust_decimal`'s `to_i64` before its range check, and of `as`-casts). -/
def truncQ (q : ℚ) : ℤ :=
  q.num.sign * ((q.num.natAbs / q.den : ℕ) : ℤ)

/-- `Decimal::to_i64` : truncation with an i64 range check. -/
def decToI64 (q : ℚ) : Option ℤ :=
  let t := truncQ q
  if I64_MIN ≤ t ∧ t ≤ I64_MAX then some t else none

/-- Rust `f as i64`: saturating truncation. -/
def f64AsI64 (q : ℚ) : ℤ :=
  min I64_MAX (max I64_MIN (truncQ q))

/-- Rust `i as usize` on an `i64`: two's-complement reinterpretation. -/
def usizeOfI64 (i : ℤ) : ℕ :=
  (i % (2 ^ 64)).toNat

/-- Numeric value of a digit string (assumes digits only). -/
def digitsVal (cs : List Char) : ℕ :=
  cs.foldl (fun a c => a * 10 + (c.toNat - 48)) 0

/-- Rust `str::parse::<i64>()`: optional sign, one or more ASCII digits,
result within the i64 range.  `none` models the `Err` case. -/
def parse_i64 (s : String) : Option ℤ :=
  let cs := s.data
  let p : Bool × List Char :=
    match cs with
    | '-' :: rest => (true, rest)
    | '+' :: rest => (false, rest)
    | _ => (false, cs)
  if p.2 = [] ∨ ¬ (p.2.all Char.isDigit) then none
  else
    let v : ℤ := if p.1 then -(digitsVal p.2 : ℤ) else (digitsVal p.2 : ℤ)
    if I64_MIN ≤ v ∧ v ≤ I64_MAX then some v else none

/-- `Decimal::from_str_radix(s, 10)` restricted to the token shapes the
parser produces: optional `-`, integer digits, optional `.` plus fraction
digits.  A dangling `.` keeps the integer value. -/
def parseDecimal (cs : List Char) : Option ℚ :=
  let p : Bool × List Char :=
    match cs with
    | '-' :: rest => (true, rest)
    | _ => (false, cs)
  let intDs := p.2.takeWhile Char.isDigit
  let rest' := p.2.dropWhile Char.isDigit
  let signed : ℚ → ℚ := fun q => if p.1 then -q else q
  match rest' with
  | [] => if intDs = [] then none else some (signed (digitsVal intDs : ℚ))
  | '.' :: fr =>
      if fr.all Char.isDigit then
        some (signed ((digitsVal intDs : ℚ) +
          (digitsVal fr : ℚ) / (10 ^ fr.length : ℚ)))
      else none
  | _ => none

/-- Number of decimal fraction digits needed to print `q` exactly
(bounded search; all values in this development are decimal). -/
def fracScale : ℕ → ℚ → ℕ
  | 0, _ => 0
  | n + 1, q => if q.den = 1 then 0 else fracScale n (q * 10) + 1

/-- Decimal rendering of a rational, matching `Decimal`/`f64` `to_string`
on the (exactly representable, normalised) values that occur in the
claims.  The Rust display keeps trailing scale zeros which a `ℚ` cannot
remember; no claim depends on that. -/
def decRender (q : ℚ) : String :=
  let sgn := if q < 0 then "-" else ""
  let a : ℚ := |q|
  let ip : ℕ := (truncQ a).toNat
  let k := fracScale 30 a
  if k = 0 then sgn ++ toString ip
  else
    let fr : ℕ := (truncQ ((a - (ip : ℚ)) * 10 ^ k)).toNat
    let ds := toString fr
    let pad := String.mk (List.replicate (k - ds.length) '0')
    sgn ++ toString ip ++ "." ++ pad ++ ds

/-! ### `cell.rs` : the value algebra -/

/-- `Val` from `cell.rs`.  `Num` carries a `rust_decimal::Decimal`
(modelled `ℚ`), `Float` an `f64` payload (modelled `ℚ`, see header). -/
inductive Val : Type
  | Num (d : ℚ)
  | Bool (b : Bool)
  | Float (f : ℚ)
  | Int (i : ℤ)
  | Str (s : String)
  | List (l : List Val)
  | Array (value : List Val) (dims : List ℕ)
  | Record (value : List Val) (fields : ℕ)

instance : Inhabited Val := ⟨Val.Num 0⟩

mutual

/-- Structural equality test for `Val` (mirrors the derived `PartialEq`). -/
def valBeq : Val → Val → Bool
  | .Num a, .Num b => decide (a = b)
  | .Bool a, .Bool b => a == b
  | .Float a, .Float b => decide (a = b)
  | .Int a, .Int b => decide (a = b)
  | .Str a, .Str b => a == b
  | .List l, .List m => valBeqL l m
  | .Array v d, .Array v' d' => valBeqL v v' && d == d'
  | .Record v f, .Record v' f' => valBeqL v v' && f == f'
  | _, _ => false

def valBeqL : List Val → List Val → Bool
  | [], [] => true
  | x :: xs, y :: ys => valBeq x y && valBeqL xs ys
  | _, _ => false

end

def valBeq_correct :
    ∀ n, (∀ a b : Val, sizeOf a < n → (valBeq a b = true ↔ a = b)) ∧
      (∀ l m : List Val, sizeOf l < n → (valBeqL l m = true ↔ l = m)) := by
  intro n
  induction n with
  | zero =>
      exact ⟨fun a b h => absurd h (Nat.not_lt_zero _),
             fun l m h => absurd h (Nat.not_lt_zero _)⟩
  | succ n ih =>
      refine ⟨?_, ?_⟩
      · intro a b ha
        cases a <;> cases b <;> try (simp [valBeq]; done)
        · rename_i l₁ l₂
          have h1 : sizeOf l₁ < n := by simp at ha; omega
          simp [valBeq, ih.2 l₁ l₂ h1]
        · rename_i v₁ d₁ v₂ d₂
          have h1 : sizeOf v₁ < n := by simp at ha; omega
          simp [valBeq, ih.2 v₁ v₂ h1]
        · rename_i v₁ f₁ v₂ f₂
          have h1 : sizeOf v₁ < n := by simp at ha; omega
          simp [valBeq, ih.2 v₁ v₂ h1]
      · intro l m hl
        cases l with
        | nil => cases m <;> simp [valBeqL]
        | cons x xs =>
          cases m with
          | nil => simp [valBeqL]
          | cons y ys =>
            have h1 : sizeOf x < n := by simp at hl; omega
            have h2 : sizeOf xs < n := by simp at hl; omega
            simp [valBeqL, ih.1 x y h1, ih.2 xs ys h2]

instance : DecidableEq Val := fun a b =>
  decidable_of_iff (valBeq a b = true)
    ((valBeq_correct (sizeOf a + 1)).1 a b (Nat.lt_succ_self _))

/-- `impl Default for Val`: `Num(0)`. -/
def Val.default : Val := Val.Num 0

/-- `impl From<&Val> for Decimal` (total: every arm uses
`unwrap_or_default`). -/
def dec_from_val : Val → ℚ
  | .Num d => d
  | .Bool b => if b then 1 else 0
  | .Float f => f
  | .Int i => (i : ℚ)
  | .Str s => (parseDecimal s.data).getD 0
  | .List _ => 0
  | .Array _ _ => 0
  | .Record _ _ => 0

/-- `impl From<Val> for i64`.  `none` models the panic in the `Str` arm
(`s.parse().unwrap()`); every other arm is total. -/
def i64_from_val : Val → Option ℤ
  | .Num d => some ((decToI64 d).getD 0)
  | .Bool b => some (if b then 1 else 0)
  | .Float f => some (f64AsI64 f)
  | .Int i => some i
  | .Str s => parse_i64 s
  | .List _ => some 0
  | .Array _ _ => some 0
  | .Record _ _ => some 0

mutual

/-- `impl ToString for Val` (total on every variant; `Record` joins its
`chunks(2)` with `:`). -/
def valToString : Val → String
  | .Num d => decRender d
  | .Bool b => if b then "true" else "false"
  | .Float f => decRender f
  | .Int i => toString i
  | .Str s => s
  | .List l => String.intercalate "," (valStrList l)
  | .Array vs _ => String.intercalate "," (valStrList vs)
  | .Record vs _ => String.intercalate "," (valStrChunks vs)

def valStrList : List Val → List String
  | [] => []
  | v :: vs => valToString v :: valStrList vs

def valStrChunks : List Val → List String
  | [] => []
  | [v] => [valToString v]
  | v :: w :: vs => (valToString v ++ ":" ++ valToString w) :: valStrChunks vs

end

/-- `impl From<Val> for String`.  `none` models the
`panic!("to_string not impl")` hit by `Array` and `Record`. -/
def string_from_val : Val → Option String
  | .Num d => some (decRender d)
  | .Bool b => some (if b then "true" else "false")
  | .Float f => some (decRender f)
  | .Int i => some (toString i)
  | .Str s => some s
  | .List l => some (String.intercalate "," (l.map valToString))
  | .Array _ _ => none
  | .Record _ _ => none

/-- `Cell` from `cell.rs`. -/
structure Cell : Type where
  value : Val
  formula : String
  style : String
  deriving DecidableEq

instance : Inhabited Cell := ⟨⟨Val.Num 0, "", ""⟩⟩

/-- `impl Default for Cell`. -/
def Cell.default : Cell := ⟨Val.Num 0, "", ""⟩

/-- `impl From<f64> for Cell`. -/
def cellOfF64 (q : ℚ) : Cell :=
  ⟨Val.Float q, decRender q, ""⟩

/-- `impl From<bool> for Cell`. -/
def cellOfBool (b : Bool) : Cell :=
  ⟨Val.Bool b, if b then "true" else "false", ""⟩

/-- `impl<T: Into<Val>> From<Vec<T>> for Cell`, at `T = f64`. -/
def cellOfF64Vec (qs : List ℚ) : Cell :=
  let values := qs.map Val.Float
  ⟨Val.List values, String.intercalate "," (values.map valToString), ""⟩

/-! ### `handle.rs` and the grid constants

`lib.rs` declares `mod constants` but `constants.rs` is not under `src/`.
Modelled from the spec: the grid capacity is `ROW_MAX × COL_MAX`, "small,
on the order of tens in each dimension", and `Tile::new` initialises the
column labels from `('a' ..= 'z').take(COL_MAX)`; we fix both constants
to 26 (the full label alphabet). -/

def COL_MAX : ℕ := 26

def ROW_MAX : ℕ := 26

/-- `pos_to_index` from `handle.rs`. -/
def pos_to_index (col row : ℕ) : ℕ :=
  row * COL_MAX + col

/-- `index_to_pos` from `handle.rs`. -/
def index_to_pos (index : ℕ) : ℕ × ℕ :=
  (index % COL_MAX, index / COL_MAX)

/-- `CellId` (imported from `cell.rs` callers; the definition itself is
not under `src/`).  Modelled from the spec: "32-bit packed index of a
cell within its tile". -/
structure CellId : Type where
  val : ℕ
  deriving DecidableEq, Repr

instance : Inhabited CellId := ⟨⟨0⟩⟩

/-- `CellRef` (referenced by `tile.rs`/`eval.rs`, definition not under
`src/`).  Modelled from the spec: "A sum type `{Pos[CARD], Label[CARD],
Id}`"; the code uses cardinalities 1 and 2. -/
inductive CellRef : Type
  | Pos1 (c : ℕ)
  | Pos2 (c r : ℕ)
  | Label1 (l : String)
  | Label2 (l1 l2 : String)
  | Id (id : CellId)
  deriving DecidableEq, Repr

/-- `pos_to_cellid` from `handle.rs`, specialised to the position forms
(CARD 0/1/2; CARD ≥ 3 panics in the source and never occurs here). -/
def pos_to_cellid : CellRef → CellId
  | .Pos1 c => ⟨pos_to_index c 0⟩
  | .Pos2 c r => ⟨pos_to_index c r⟩
  | _ => ⟨0⟩

/-! ### `parser.rs` : arena types -/

/-- Token kind tags (`Tok` in `parser.rs`). -/
inductive Tok : Type
  | Nil | Num | Op | Sym | KW | WS | Str
  | LPar | RPar | LBck | RBck | LBrc | RBrc
  deriving DecidableEq, Repr

/-- A recorded token: char position, length, tag. -/
structure Token : Type where
  pos : ℕ
  len : ℕ
  tag : Tok
  deriving DecidableEq, Repr

/-- `NodeId` — index into the node arena. -/
structure NodeId : Type where
  val : ℕ
  deriving DecidableEq, Repr

instance : Inhabited NodeId := ⟨⟨0⟩⟩

/-- `ValueId` — index into the value arena. -/
structure ValueId : Type where
  val : ℕ
  deriving DecidableEq, Repr

/-- `LIST_ELEMS` from `eval.rs`. -/
def LIST_ELEMS : ℕ := 8

/-- `Node` from `eval.rs`.  The fixed `[NodeId; 8]` slab is a `List` that
is always built with length 8. -/
inductive Node : Type
  | Zero
  | Leaf (value : ValueId)
  | BinOp (op : Char) (lhs rhs : NodeId)
  | UniOp (op : Char) (rhs : NodeId)
  | Index (row col : NodeId)
  | Addr (row col : NodeId)
  | List (elems : List NodeId) (len : ℕ) (link : Option NodeId)
  deriving DecidableEq, Repr

instance : Inhabited Node := ⟨Node.Zero⟩

/-- `impl Default for Node`. -/
def Node.default : Node := Node.Zero

/-- The mutable part of `struct Parser` (`parser.rs`): the three parallel
arenas, the three-slot left-recursion memo and the cursor.  The source
also stores the char buffer `buf` in the struct, but never mutates it
after `Parser::new`; the embedding passes it to every rule as an
explicit read-only parameter instead.  A memo slot holds the
`Box<dyn Any>` payload, which is always an `Option<Node>` in the source
(`left`/`leftpoline` are only instantiated at `Node`). -/
structure Parser : Type where
  tokens : List Token
  nodes : List Node
  values : List Val
  memos : List (Option (Option Node))
  pos : ℕ
  deriving DecidableEq

/-- The state part of `Parser::new` (empty token arena, arenas seeded
with one default element each, empty memo, cursor 0). -/
def Parser.init : Parser :=
  ⟨[], [Node.Zero], [Val.Num 0], [none, none, none], 0⟩

/-- `rule_key`: `"expr_list" ↦ 2`, `"expr" ↦ 1`, default `0`. -/
def rule_key (name : String) : ℕ :=
  if name = "expr_list" then 2 else if name = "expr" then 1 else 0

/-- The saved snapshot (`ParseState` in `parser.rs`). -/
structure ParseState : Type where
  pos : ℕ
  len_toks : ℕ
  len_nodes : ℕ

/-- Parser rules: Rust methods `fn(&mut self) -> Option<T>` become
state transformers that thread the (possibly mutated) state even on
failure — exactly the behaviour of `?` on a `&mut self` method. -/
structure M (α : Type) : Type where
  run : Parser → Option α × Parser

instance : Monad M where
  pure a := ⟨fun s => (some a, s)⟩
  bind x f := ⟨fun s =>
    match x.run s with
    | (some a, s') => (f a).run s'
    | (none, s') => (none, s')⟩

/-- The failing rule (Rust `return None`). -/
def mfail : M α := ⟨fun s => (none, s)⟩

/-! ### `parser.rs` : primitive combinators

Rules that read the input take the immutable char buffer `buf` as their
first argument. -/

/-- Read the whole state (`&self` access). -/
def getS : M Parser := ⟨fun s => (some s, s)⟩

/-- `Parser::save`. -/
def saveOf (s : Parser) : ParseState :=
  ⟨s.pos, s.tokens.length, s.nodes.length⟩

/-- `Parser::rollback` as a state function. -/
def rollbackFun (st : ParseState) (s : Parser) : Parser :=
  { s with pos := st.pos, tokens := s.tokens.take st.len_toks,
           nodes := s.nodes.take st.len_nodes }

/-- `Parser::next`: on success advances the cursor; at end of input it
fails without moving. -/
def next (buf : List Char) : M Char := ⟨fun s =>
  match buf.get? s.pos with
  | some c => (some c, { s with pos := s.pos + 1 })
  | none => (none, s)⟩

/-- `Parser::push_node`. -/
def push_node (n : Node) : M NodeId :=
  ⟨fun s => (some ⟨s.nodes.length⟩, { s with nodes := s.nodes ++ [n] })⟩

/-- `Parser::push_value`. -/
def push_value (v : Val) : M ValueId :=
  ⟨fun s => (some ⟨s.values.length⟩, { s with values := s.values ++ [v] })⟩

/-- `ObjectContext::get_node` for `Parser` (out-of-range indexing panics
in Rust; modelled as failure). -/
def get_node (id : NodeId) : M Node :=
  ⟨fun s => (s.nodes.get? id.val, s)⟩

/-- `Parser::tok_value`. -/
def tok_value (buf : List Char) (t : Token) : String :=
  ⟨(buf.drop t.pos).take t.len⟩

/-- `Parser::tok_values`. -/
def tok_values (buf : List Char) (s : Parser) : List String :=
  s.tokens.map (tok_value buf)

/-- `Parser::push_tok`: record a token spanning the characters the inner
rule consumed (`TokCtx::end` panics when the final position precedes the
start; modelled as failure). -/
def push_tok (tag : Tok) (rule : M α) : M α := ⟨fun s =>
  let start := s.pos
  match rule.run s with
  | (some a, s') =>
      if s'.pos < start then (none, s')
      else (some a, { s' with tokens := s'.tokens ++ [⟨start, s'.pos - start, tag⟩] })
  | (none, s') => (none, s')⟩

/-- `Parser::yield_tok`: like `push_tok` but returns the token. -/
def yield_tok (tag : Tok) (rule : M α) : M Token := ⟨fun s =>
  let start := s.pos
  match rule.run s with
  | (some _, s') =>
      if s'.pos < start then (none, s')
      else
        (some ⟨start, s'.pos - start, tag⟩,
         { s' with tokens := s'.tokens ++ [⟨start, s'.pos - start, tag⟩] })
  | (none, s') => (none, s')⟩

/-- The scan loop inside `match_ws`: keep calling `next` while it yields
whitespace; the failing read (a non-whitespace char or end of input) is
part of the loop. -/
def wsDrain (buf : List Char) : ℕ → Parser → Parser
  | 0, s => s
  | fuel + 1, s =>
      match (next buf).run s with
      | (some c, s') => if c.isWhitespace then wsDrain buf fuel s' else s'
      | (none, s') => s'

/-- `Parser::match_ws`: returns the first character when at least one
whitespace character was read; steps the cursor back one position unless
it sits at the end of the buffer. -/
def match_ws (buf : List Char) : M Char := ⟨fun s =>
  match (next buf).run s with
  | (some c, s1) =>
      if c.isWhitespace then
        let s2 := wsDrain buf (buf.length + 1) s1
        (some c, if s2.pos ≠ buf.length then { s2 with pos := s2.pos - 1 } else s2)
      else (none, s1)
  | (none, s1) => (none, s1)⟩

/-- `Parser::ws`. -/
def ws (buf : List Char) : M Char := push_tok .WS (match_ws buf)

/-- `Parser::maybe`: always succeeds; on inner failure only the position
is restored (tokens and nodes are deliberately left as the failed rule
left them — see the comment in the source). -/
def maybe (d : α) (rule : M α) : M α := ⟨fun s =>
  match rule.run s with
  | (some a, s') => (some a, s')
  | (none, s') => (some d, { s' with pos := s.pos })⟩

/-- `Parser::maybe_ws`. -/
def maybe_ws (buf : List Char) : M Char := maybe (Char.ofNat 0) (ws buf)

/-- `Parser::char`. -/
def char (buf : List Char) (needle : Char) : M Char := do
  let item ← next buf
  if item = needle then pure needle else mfail

/-- `Parser::not_char` (note: returns the needle, not the read char). -/
def not_char (buf : List Char) (needle : Char) : M Char := do
  let item ← next buf
  if item ≠ needle then pure needle else mfail

/-- `Parser::class`. -/
def cls (buf : List Char) (chars : List Char) : M Char := do
  let item ← next buf
  if chars.contains item then pure item else mfail

/-- `Parser::class_caseins`. -/
def cls_caseins (buf : List Char) (chars : List Char) : M Char := do
  let item ← next buf
  if chars.contains item || chars.contains item.toLower then pure item else mfail

/-- `Parser::scan_string`: the first char through `char_rule`, the rest
through `char`. -/
def scan_string (buf : List Char) (needle : List Char)
    (char_rule : Char → M Char) : M Char :=
  match needle with
  | [] => mfail
  | c :: rest => do
      let r0 ← char_rule c
      rest.foldlM (fun _ ch => char buf ch) r0

/-- `Parser::string`. -/
def string (buf : List Char) (needle : String) : M Char :=
  scan_string buf needle.data (fun c => char buf c)

/-- The loop of `Parser::select`: try each rule; on failure roll back to
the snapshot taken before the choice. -/
def selGo : List (M α) → ParseState → Parser → Option α × Parser
  | [], _, s => (none, s)
  | r :: rs, st, s =>
      match r.run s with
      | (some a, s') => (some a, s')
      | (none, s') => selGo rs st (rollbackFun st s')

/-- `Parser::select`. -/
def select (rules : List (M α)) : M α :=
  ⟨fun s => selGo rules (saveOf s) s⟩

/-- The loop of `Parser::zero_or_more` (fuel-bounded; every rule it is
applied to consumes at least one character, so `buf.length + 2` rounds
never run out). -/
def zomGo : ℕ → M α → Option α → ParseState → Parser → Option α × Parser
  | 0, _, _, _, s => (none, s)
  | fuel + 1, rule, last, st, s =>
      match rule.run s with
      | (none, s') => (last, rollbackFun st s')
      | (some a, s') => zomGo fuel rule (some a) (saveOf s') s'

/-- `Parser::zero_or_more`: greedy, rolling back the final failing
attempt; yields `Some(default)` on zero matches. -/
def zero_or_more (buf : List Char) (d : α) (rule : M α) : M α :=
  ⟨fun s => zomGo (buf.length + 2) rule (some d) (saveOf s) s⟩

/-- `Parser::one_or_more`. -/
def one_or_more (buf : List Char) (d : α) (rule : M α) : M α := do
  let res ← rule
  let _ ← zero_or_more buf d rule
  pure res

/-! ### `parser.rs` : grammar rules -/

def digits19 : List Char := ['1', '2', '3', '4', '5', '6', '7', '8', '9']

def digits09 : List Char := ['0', '1', '2', '3', '4', '5', '6', '7', '8', '9']

def alphaChars : List Char := "abcdefghijklmnopqrstuvwxyz".data

/-- `Parser::match_num_nonzero`. -/
def match_num_nonzero (buf : List Char) : M Char := do
  let _ ← maybe (Char.ofNat 0) (char buf '-')
  let _ ← cls buf digits19
  let _ ← zero_or_more buf (Char.ofNat 0) (cls buf digits09)
  let _ ← maybe (Char.ofNat 0) (char buf '.')
  zero_or_more buf (Char.ofNat 0) (cls buf digits09)

/-- `Parser::match_num_zero`. -/
def match_num_zero (buf : List Char) : M Char := char buf '0'

/-- `Parser::r_num`: number token, then a `Leaf` over the parsed decimal
(`unwrap_or(Decimal::default())` on parse failure). -/
def r_num (buf : List Char) : M Node := do
  let tok ← yield_tok .Num (select [match_num_zero buf, match_num_nonzero buf])
  let vid ← push_value (.Num ((parseDecimal (tok_value buf tok).data).getD 0))
  pure (.Leaf vid)

/-- `Parser::match_string`. -/
def match_string (buf : List Char) (bookend : Char) : M Char := do
  let _ ← char buf bookend
  let _ ← zero_or_more buf (Char.ofNat 0) (not_char buf bookend)
  let _ ← char buf bookend
  pure bookend

/-- `Parser::r_string`: the `Leaf` holds the body without the bookends. -/
def r_string (buf : List Char) : M Node := do
  let tok ← yield_tok .Str (select [match_string buf '\'', match_string buf '"'])
  let vid ← push_value (.Str ⟨(buf.drop (tok.pos + 1)).take (tok.len - 2)⟩)
  pure (.Leaf vid)

/-- `Parser::match_bool`. -/
def match_bool (buf : List Char) (needle : String) (value : Bool) : M Node := do
  let _ ← yield_tok .KW (string buf needle)
  let vid ← push_value (.Bool value)
  pure (.Leaf vid)

def r_true (buf : List Char) : M Node := match_bool buf "true" true

def r_false (buf : List Char) : M Node := match_bool buf "false" false

def r_bool (buf : List Char) : M Node := select [r_true buf, r_false buf]

def match_plus (buf : List Char) : M Char := char buf '+'

def match_minus (buf : List Char) : M Char := char buf '-'

def match_star (buf : List Char) : M Char := char buf '*'

def match_fslash (buf : List Char) : M Char := char buf '/'

/-- `Parser::r_term_literal`. -/
def r_term_literal (buf : List Char) : M Node :=
  select [r_num buf, r_string buf, r_bool buf]

def match_lpar (buf : List Char) : M Char := push_tok .LPar (char buf '(')

def match_rpar (buf : List Char) : M Char := push_tok .RPar (char buf ')')

/-- `Parser::r_term_sym`. -/
def r_term_sym (buf : List Char) : M Node := do
  let tok ← yield_tok .Sym (one_or_more buf (Char.ofNat 0) (cls_caseins buf alphaChars))
  let vid ← push_value (.Str (tok_value buf tok))
  pure (.Leaf vid)

/-- `Parser::r_term_paren` (parameterised by the `r_expr` it recurses
into; the fuel-indexed `r_expr` below closes the knot). -/
def r_term_paren (buf : List Char) (re : M Node) : M Node := do
  let _ ← match_lpar buf
  let expr ← re
  let _ ← match_rpar buf
  pure expr

/-- `Parser::r_term`. -/
def r_term (buf : List Char) (re : M Node) : M Node :=
  select [r_term_literal buf, r_term_sym buf, r_term_paren buf re]

/-- `Parser::match_binop`. -/
def match_binop (buf : List Char) : M Char :=
  push_tok .Op (select [match_plus buf, match_minus buf, match_star buf, match_fslash buf])

/-- `Parser::r_expr_binop`: note the left operand is `r_term`, not a
left-recursive expression. -/
def r_expr_binop (buf : List Char) (re : M Node) : M Node := do
  let lnode ← r_term buf re
  let left_id ← push_node lnode
  let _ ← maybe_ws buf
  let op ← match_binop buf
  let _ ← maybe_ws buf
  let rnode ← re
  let right_id ← push_node rnode
  pure (.BinOp op left_id right_id)

/-- `Parser::left` — "calls" a left-recursive rule by reading the memo
slot (always instantiated at `T = Node` in the source). -/
def left (key : ℕ) : M Node := ⟨fun s =>
  match s.memos.get? key with
  | some (some r) => (r, s)
  | some none => (none, s)
  | none => (none, s)⟩

/-- `Parser::cons_list` (fuel-bounded recursion along the link chain;
`elems[len]` out of range would panic in Rust and is modelled as
failure). -/
def cons_list : ℕ → Node → NodeId → NodeId → M Node
  | 0, _, _, _ => mfail
  | fuel + 1, lnode, left_id, right_id =>
      match lnode with
      | .List elems len link =>
          if len = LIST_ELEMS ∧ link = none then do
            let empty_node := Node.List (List.replicate LIST_ELEMS ⟨0⟩) 0 none
            let empty ← push_node empty_node
            let lk ← cons_list fuel empty_node empty right_id
            let lkId ← push_node lk
            pure (.List elems (LIST_ELEMS + 1) (some lkId))
          else
            match link with
            | some l => do
                let orig ← get_node l
                let nl ← cons_list fuel orig l right_id
                let nlId ← push_node nl
                pure (.List elems (len + 1) (some nlId))
            | none =>
                if len < LIST_ELEMS then
                  pure (.List (elems.set len right_id) (len + 1) none)
                else mfail
      | _ =>
          pure (.List (((List.replicate LIST_ELEMS (⟨0⟩ : NodeId)).set 0 left_id).set 1
            right_id) 2 none)

/-- `Parser::match_list_left_rec`. -/
def match_list_left_rec (buf : List Char) (re : M Node) : M Node := do
  let lnode ← left (rule_key "expr")
  let left_id ← push_node lnode
  let _ ← maybe_ws buf
  let _ ← char buf ','
  let _ ← maybe_ws buf
  let rnode ← r_term buf re
  let right_id ← push_node rnode
  let s ← getS
  cons_list (s.nodes.length + 2) lnode left_id right_id

/-- `Parser::r_expr_list`. -/
def r_expr_list (buf : List Char) (re : M Node) : M Node :=
  match_list_left_rec buf re

/-- `Parser::r_expr_lookup`. -/
def r_expr_lookup (buf : List Char) : M Node := r_term_sym buf

/-- `Parser::match_compound`: a bracketed inner expression; a `List`
inner supplies `elems[0]`/`elems[1]`, anything else is pushed and used as
the `row` with `col = NodeId(0)`. -/
def match_compound (buf : List Char) (re : M Node) (startC : Char) (startT : Tok)
    (endC : Char) (endT : Tok) (cb : NodeId → NodeId → Node) : M Node := do
  let _ ← push_tok startT (char buf startC)
  let _ ← maybe_ws buf
  let inner ← re
  let rc ← (match inner with
    | .List elems _ _ => pure (elems.getD 0 ⟨0⟩, elems.getD 1 ⟨0⟩)
    | _ => do
        let r ← push_node inner
        pure (r, (⟨0⟩ : NodeId)))
  let _ ← push_tok endT (char buf endC)
  pure (cb rc.1 rc.2)

/-- `Parser::r_expr_index`. -/
def r_expr_index (buf : List Char) (re : M Node) : M Node :=
  match_compound buf re '[' .LBck ']' .RBck (fun r c => .Index r c)

/-- `Parser::r_expr_addr`. -/
def r_expr_addr (buf : List Char) (re : M Node) : M Node :=
  match_compound buf re (Char.ofNat 123) .LBrc (Char.ofNat 125) .RBrc
    (fun r c => .Addr r c)

/-- `Parser::match_expr`. -/
def matchExpr (buf : List Char) (re : M Node) : M Node := do
  let _ ← maybe_ws buf
  let res ← select [r_expr_binop buf re, r_expr_list buf re, r_term buf re,
    r_expr_lookup buf, r_expr_index buf re, r_expr_addr buf re]
  let _ ← maybe_ws buf
  pure res

/-- The grow loop of `Parser::leftpoline`: rerun the rule (from wherever
the previous run stopped — the source performs no rollback here), keep
the parse while the consumed length strictly grows, memoise each
improvement. -/
def lpGo (key : ℕ) (rule : M Node) (startPos : ℕ) :
    ℕ → Option Node → ℕ → Parser → Option Node × Parser
  | 0, saved, _, s => (saved, s)
  | fuel + 1, saved, len_parsed, s =>
      match rule.run s with
      | (none, s') => (saved, s')
      | (some res, s') =>
          let new_len := s'.pos - startPos
          if new_len ≤ len_parsed then (saved, s')
          else lpGo key rule startPos fuel (some res) new_len
            { s' with memos := s'.memos.set key (some (some res)) }

/-- `Parser::leftpoline`. -/
def leftpoline (buf : List Char) (key : ℕ) (rule : M Node) : M Node :=
  ⟨fun s => lpGo key rule s.pos (buf.length + 2) none 0 s⟩

/-- `Parser::r_expr`, indexed by fuel.  Every nested `r_expr` entry in
the source consumes at least one character first, so `buf.length + 2`
fuel at the top level reproduces the Rust recursion exactly. -/
def r_expr (buf : List Char) : ℕ → M Node
  | 0 => mfail
  | n + 1 => leftpoline buf (rule_key "expr") (matchExpr buf (r_expr buf n))

/-- `Parser::new` followed by `Parser::parse`. -/
def Parser.parse (input : String) : Option Node × Parser :=
  (r_expr input.data (input.data.length + 2)).run Parser.init

/-- `Parser::new` followed by `Parser::scan`. -/
def Parser.scan (input : String) : List String × Parser :=
  match Parser.parse input with
  | (some _, s') => (tok_values input.data s', s')
  | (none, s') => ([], s')

/-! ### Token tiling

The relation between the recorded tokens and the recognised prefix of the
input.  The grammar records a token for every consumed span except the
list separator `,`, which `match_list_left_rec` reads with a bare
`char` — so the tokens tile the recognised prefix up to runs of
commas in the gaps. -/

/-- The half-open char range `[a, b)` of `buf` holds only commas. -/
def gapOnly (buf : List Char) (a b : ℕ) : Prop :=
  a ≤ b ∧ b ≤ buf.length ∧ (buf.drop a).take (b - a) = List.replicate (b - a) ','

/-- The tokens `ts` tile `[a, pos)` of `buf` in order, consecutively,
with only comma gaps between, before and after them. -/
def tiled (buf : List Char) : List Token → ℕ → ℕ → Prop
  | [], a, pos => gapOnly buf a pos
  | t :: ts, a, pos =>
      gapOnly buf a t.pos ∧ t.pos + t.len ≤ buf.length ∧
        tiled buf ts (t.pos + t.len) pos

/-- The token texts of `ts` joined in order, with the comma runs the
parse consumed between them reinserted in the gaps. -/
def joinGapped (buf : List Char) : List Token → ℕ → ℕ → List Char
  | [], a, pos => List.replicate (pos - a) ','
  | t :: ts, a, pos =>
      List.replicate (t.pos - a) ',' ++ (tok_value buf t).data ++
        joinGapped buf ts (t.pos + t.len) pos

/-- A rule that never touches the token arena and keeps the cursor
within the buffer: the character-level rules a token wrapper encloses. -/
def NoTok (buf : List Char) (r : M α) : Prop :=
  ∀ s : Parser, ((r.run s).2).tokens = s.tokens ∧
    (s.pos ≤ buf.length → ((r.run s).2).pos ≤ buf.length)

/-- A rule that touches neither the token arena nor the cursor. -/
def Inert (r : M α) : Prop :=
  ∀ s : Parser, ((r.run s).2).tokens = s.tokens ∧ ((r.run s).2).pos = s.pos

/-- Success-preservation of the tiling invariant: the rule only appends
tokens, and from a tiled state every *successful* run ends tiled. -/
def TPresS (buf : List Char) (r : M α) : Prop :=
  ∀ s : Parser, s.tokens <+: ((r.run s).2).tokens ∧
    (tiled buf s.tokens 0 s.pos → ((r.run s).1).isSome = true →
      tiled buf ((r.run s).2).tokens 0 ((r.run s).2).pos)

/-- Unconditional preservation of the tiling invariant (rules that
restore their snapshot on failure, and always-succeeding rules). -/
def TPresU (buf : List Char) (r : M α) : Prop :=
  ∀ s : Parser, s.tokens <+: ((r.run s).2).tokens ∧
    (tiled buf s.tokens 0 s.pos →
      tiled buf ((r.run s).2).tokens 0 ((r.run s).2).pos)

/-- The root node of the parse of `"1,2"` (C4 witness). -/
def c4N : Node := (Parser.parse "1,2").1.getD Node.default

/-- The final parser state of the parse of `"1,2"` (C4 witness). -/
def c4P : Parser := (Parser.parse "1,2").2

/-! ### `eval.rs` : the evaluator -/

/-- The operator table of the `BinOp` arm of `Node::eval`: `+ - / *`,
anything else the constant-zero function.  Division by zero is `0` in the
`ℚ` model (`rust_decimal` panics there; no claim divides by zero). -/
def opFn : Char → ℚ → ℚ → ℚ
  | '+' => fun l r => l + r
  | '-' => fun l r => l - r
  | '/' => fun l r => l / r
  | '*' => fun l r => l * r
  | _ => fun _ _ => 0

/-- The `match (left, right)` dispatch of the `BinOp` arm of
`Node::eval`, arm for arm.  (`Decimal::from_f64(...).unwrap()` cannot
fail in the `ℚ` float model.) -/
def binopDispatch (f : ℚ → ℚ → ℚ) : Val → Val → Val
  | .List l, .Num r => .List (l.map fun v => .Num (f (dec_from_val v) r))
  | .Num l, .List r => .List (r.map fun v => .Num (f l (dec_from_val v)))
  | .Num l, .Num r => .Num (f l r)
  | .Num l, .Int r => .Num (f l (r : ℚ))
  | .Int l, .Num r => .Num (f (l : ℚ) r)
  | .Num l, .Float r => .Num (f l r)
  | .Float l, .Num r => .Num (f l r)
  | .Num l, .Bool r => .Num (f l (dec_from_val (.Bool r)))
  | .Bool l, .Num r => .Num (f (dec_from_val (.Bool l)) r)
  | _, _ => .Num 0

/-- The capability interface `eval` runs against: `ObjectContext`
(arena reads, pure) plus `TileContext::get_cell` over a mutable state
`σ` (position and label forms — the `CARD = 2` instantiations the
evaluator uses).  `none` models a panic inside the context. -/
structure EvalCtx (σ : Type) : Type where
  getVal : ValueId → Option Val
  getNode : NodeId → Option Node
  getCellPos : σ → ℕ → ℕ → Option ((CellId × Cell) × σ)
  getCellLbl : σ → String → String → Option ((CellId × Cell) × σ)

/-- Evaluate the first `n` elements of a `List` node (the
`elems.iter().take(clamped_len)` loop). -/
def evalElems (evalN : Node → σ → Option (Val × σ)) (C : EvalCtx σ) :
    List NodeId → σ → Option (List Val × σ)
  | [], st => some ([], st)
  | nid :: rest, st => do
      let node ← C.getNode nid
      let (v, st1) ← evalN node st
      let (vs, st2) ← evalElems evalN C rest st1
      some (v :: vs, st2)

/-- `Node::eval`, fuel-bounded (the arena is acyclic by construction, so
any fuel beyond the arena length is enough on real parses). -/
def evalNode (C : EvalCtx σ) : ℕ → Node → σ → Option (Val × σ)
  | 0, _, _ => none
  | _ + 1, .Leaf value, st => do
      let v ← C.getVal value
      some (v, st)
  | fuel + 1, .BinOp op lhs rhs, st => do
      let lnode ← C.getNode lhs
      let rnode ← C.getNode rhs
      let (l, st1) ← evalNode C fuel lnode st
      let (r, st2) ← evalNode C fuel rnode st1
      some (binopDispatch (opFn op) l r, st2)
  | fuel + 1, .List elems len link, st => do
      let clamped := min len LIST_ELEMS
      let (vals, st1) ← evalElems (evalNode C fuel) C (elems.take clamped) st
      if len > clamped then do
        let lk ← link
        let lnode ← C.getNode lk
        let (rest, st2) ← evalNode C fuel lnode st1
        match rest with
        | .List l => some (.List (vals ++ l), st2)
        | _ => some (.List vals, st2)
      else
        some (.List vals, st1)
  | fuel + 1, .Index row col, st => do
      let rnode ← C.getNode row
      let cnode ← C.getNode col
      let (rv, st1) ← evalNode C fuel rnode st
      let (cv, st2) ← evalNode C fuel cnode st1
      let r ← i64_from_val rv
      let c ← i64_from_val cv
      let ((_, cell), st3) ← C.getCellPos st2 (usizeOfI64 r) (usizeOfI64 c)
      some (cell.value, st3)
  | fuel + 1, .Addr row col, st => do
      let rnode ← C.getNode row
      let cnode ← C.getNode col
      let (rv, st1) ← evalNode C fuel rnode st
      let (cv, st2) ← evalNode C fuel cnode st1
      let r ← string_from_val rv
      let c ← string_from_val cv
      let ((_, cell), st3) ← C.getCellLbl st2 r c
      some (cell.value, st3)
  | _ + 1, .Zero, st => some (.Num 0, st)
  | _ + 1, .UniOp _ _, st => some (.Num 0, st)

/-- The evaluation context a bare `Parser` provides (its `TileContext`
impl panics on every `get_cell`). -/
def parserCtx (p : Parser) : EvalCtx Unit where
  getVal vid := p.values.get? vid.val
  getNode nid := p.nodes.get? nid.val
  getCellPos _ _ _ := none
  getCellLbl _ _ _ := none

/-- Parse an input and evaluate the resulting root node against the
parser's own arena (the pattern of the `parser.rs` tests and benches). -/
def parseEval (input : String) : Option Val :=
  match Parser.parse input with
  | (some root, p') => (evalNode (parserCtx p') (p'.nodes.length + 2) root ()).map (·.1)
  | (none, _) => none

/-! ### `tile.rs` : tiles and the dependency graph

The petgraph `StableGraph` is embedded as the insertion-ordered list of
node weights (`deps_nodes`, index = `NodeIndex`) plus the list of edges
`(source index, target index)`; `lookup` is the `HashMap<CellId,
NodeIndex>` as an insertion-ordered association list (only `entry` /
`index` are used, so iteration order never matters). -/

/-- `HashMap::get`-style lookup on the association list. -/
def lookupSlot (l : List (CellId × ℕ)) (k : CellId) : Option ℕ :=
  (l.find? (fun p => p.1 = k)).map (·.2)

structure Tile : Type where
  tag : ℕ
  rows : ℕ
  cols : ℕ
  cells : ℕ → Cell
  lbls : List String
  deps_nodes : List CellId
  deps_edges : List (ℕ × ℕ)
  lookup : List (CellId × ℕ)

/-- The column labels written by `Tile::new`:
`('a' ..= 'z').take(COL_MAX)`, upper-cased. -/
def colLabelList : List String :=
  (alphaChars.take COL_MAX).map (fun c => String.mk [c.toUpper])

/-- The row labels written by `Tile::new`: `"1"` up to `ROW_MAX`. -/
def rowLabelList : List String :=
  (List.range ROW_MAX).map (fun i => toString (i + 1))

/-- `Tile::new`. -/
def Tile.new (tag : ℕ) : Tile :=
  ⟨tag, 0, 0, fun _ => Cell.default, colLabelList ++ rowLabelList, [], [], []⟩

/-- `Tile::get_cell_by_id` (array indexing; out of capacity panics). -/
def Tile.get_cell_by_id (t : Tile) (cell : CellId) : Option Cell :=
  if cell.val < ROW_MAX * COL_MAX then some (t.cells cell.val) else none

/-- `Tile::set_cell_by_id`: grows the observed extents, unconditionally
adds a dep-graph node, inserts the lookup entry only if absent, writes
the cell (out-of-capacity write panics). -/
def Tile.set_cell_by_id (t : Tile) (cell : CellId) (data : Cell) : Option Tile :=
  let index := cell.val
  let p := index_to_pos index
  let cols' := if p.1 ≥ t.cols then p.1 + 1 else t.cols
  let rows' := if p.2 ≥ t.rows then p.2 + 1 else t.rows
  let ix := t.deps_nodes.length
  let lookup' :=
    if (lookupSlot t.lookup cell).isSome then t.lookup else t.lookup ++ [(cell, ix)]
  if index < ROW_MAX * COL_MAX then
    some ({ t with
      rows := rows',
      cols := cols',
      deps_nodes := t.deps_nodes ++ [cell],
      lookup := lookup',
      cells := Function.update t.cells index data })
  else none

/-- `Tile::pos_for`: first label-array match, `COL_MAX` subtracted for
row labels, unknown labels resolve to 0. -/
def Tile.pos_for (t : Tile) (lbls : List String) : List ℕ :=
  lbls.map (fun lbl =>
    match t.lbls.findIdx? (fun hay => hay = lbl) with
    | some n => if n < COL_MAX then n else n - COL_MAX
    | none => 0)

/-- `Tile::resolve`. -/
def Tile.resolve (t : Tile) : CellRef → CellId
  | .Pos1 c => pos_to_cellid (.Pos1 c)
  | .Pos2 c r => pos_to_cellid (.Pos2 c r)
  | .Label1 l => pos_to_cellid (.Pos1 ((t.pos_for [l]).getD 0 0))
  | .Label2 l1 l2 =>
      pos_to_cellid (.Pos2 ((t.pos_for [l1, l2]).getD 0 0) ((t.pos_for [l1, l2]).getD 1 0))
  | .Id id => id

/-- `Tile::get_cell`. -/
def Tile.get_cell (t : Tile) (r : CellRef) : Option Cell :=
  t.get_cell_by_id (t.resolve r)

/-- `Tile::set_cell`. -/
def Tile.set_cell (t : Tile) (r : CellRef) (data : Cell) : Option Tile :=
  t.set_cell_by_id (t.resolve r) data

/-- `Tile::update_cell`. -/
def Tile.update_cell (t : Tile) (r : CellRef) (f : Cell → Cell) :
    Option (Tile × Cell) := do
  let cellid := t.resolve r
  let old ← t.get_cell_by_id cellid
  let c := f old
  let t' ← t.set_cell_by_id cellid c
  some (t', c)

/-- `Tile::track_dep`: adds the edge `upstream → downstream`; indexing a
missing lookup entry panics. -/
def Tile.track_dep (t : Tile) (downstream upstream : CellRef) : Option Tile := do
  let d := t.resolve downstream
  let u := t.resolve upstream
  let uix ← lookupSlot t.lookup u
  let dix ← lookupSlot t.lookup d
  some { t with deps_edges := t.deps_edges ++ [(uix, dix)] }

/-- petgraph `neighbors`: targets of the outgoing edges, most recent
first. -/
def neighborsOf (t : Tile) (ix : ℕ) : List ℕ :=
  ((t.deps_edges.filter (fun e => e.1 = ix)).map (·.2)).reverse

/-- `Tile::cell_deps`. -/
def Tile.cell_deps (t : Tile) (r : CellRef) : Option (List CellId) := do
  let cellid := t.resolve r
  let ix ← lookupSlot t.lookup cellid
  (neighborsOf t ix).mapM (fun tgt => t.deps_nodes.get? tgt)

/-- Modelled from the spec: `tile.rs` evaluates through
`crate::eval::MainContext { parser, state }`, which is not under `src/`.
Per §4.4 the parser arena supplies `get_node`/`get_value` and the tile
state (`TileState`, `tile.rs` lines 86-97) supplies `get_cell`, which
first records the dependency edge and then resolves and reads the
cell. -/
def mainCtx (p : Parser) : EvalCtx (Tile × CellId) where
  getVal vid := p.values.get? vid.val
  getNode nid := p.nodes.get? nid.val
  getCellPos := fun st r c => do
    let t' ← st.1.track_dep (.Id st.2) (.Pos2 r c)
    let cl ← t'.get_cell (.Pos2 r c)
    some ((t'.resolve (.Pos2 r c), cl), (t', st.2))
  getCellLbl := fun st l1 l2 => do
    let t' ← st.1.track_dep (.Id st.2) (.Label2 l1 l2)
    let cl ← t'.get_cell (.Label2 l1 l2)
    some ((t'.resolve (.Label2 l1 l2), cl), (t', st.2))

/-- The `for dep in deps` loop at the end of `Tile::eval_cell`:
re-evaluate each dependent, and when that yields a cell also write it
back via `set_cell_by_id`. -/
def depsLoopWith (ev : Tile → CellRef → Option (Tile × Option Cell)) :
    Tile → List CellId → Option Tile
  | t, [] => some t
  | t, dep :: rest => do
      let (tA, c?) ← ev t (.Id dep)
      let tB ← match c? with
        | some c => tA.set_cell_by_id dep c
        | none => some tA
      depsLoopWith ev tB rest

/-- `Tile::eval_cell`, fuel-bounded on the propagation depth.  The inner
`Option` of the result is the source's `Option<Cell>` (`none` = parse
failure); the outer `Option` models panics and fuel exhaustion. -/
def Tile.eval_cell : ℕ → Tile → ℕ → CellRef → Option (Tile × Option Cell)
  | 0, _, _, _ => none
  | fuel + 1, t, tileId, cref =>
      let cellid := t.resolve cref
      match t.get_cell_by_id cellid with
      | none => none
      | some cell =>
          match Parser.parse cell.formula with
          | (some node, p') => do
              let (res, st1) ← evalNode (mainCtx p') (p'.nodes.length + 2) node (t, cellid)
              let deps ← st1.1.cell_deps (.Id cellid)
              let cell' : Cell := { cell with value := res }
              let t2 ← st1.1.set_cell (.Id cellid) cell'
              let t3 ← depsLoopWith (fun tt rr => Tile.eval_cell fuel tt tileId rr) t2 deps
              some (t3, some cell')
          | (none, _) => do
              let r ← t.update_cell (.Id cellid) (fun c => { c with value := .Str "error" })
              some (r.1, none)

/-! ### `board.rs` -/

/-- `Board`: the `BTreeMap<Tag, Tile>` as an insertion-ordered
association list (tags are issued monotonically, so insertion order is
key order). -/
structure Board : Type where
  next_tag : ℕ
  tiles : List (ℕ × Tile)

/-- `impl Default for Board`. -/
def Board.default : Board := ⟨0, []⟩

/-- `Board::add_tile`. -/
def Board.add_tile (b : Board) : Board × ℕ :=
  (⟨b.next_tag + 1, b.tiles ++ [(b.next_tag, Tile.new b.next_tag)]⟩, b.next_tag)

/-- `Board::get_tile`. -/
def Board.get_tile (b : Board) (tag : ℕ) : Option Tile :=
  (b.tiles.find? (fun p => p.1 = tag)).map (·.2)

/-- Replace a tile in place (the effect of `tiles.get_mut`). -/
def Board.set_tile (b : Board) (tag : ℕ) (t : Tile) : Board :=
  { b with tiles := b.tiles.map (fun p => if p.1 = tag then (tag, t) else p) }

/-- `Board::set_pos` (missing tiles are silently ignored; a panicking
cell write propagates). -/
def Board.set_pos (b : Board) (tag : ℕ) (r : CellRef) (data : Cell) : Option Board :=
  match b.get_tile tag with
  | some tile => (tile.set_cell r data).map (fun t' => b.set_tile tag t')
  | none => some b

/-- `Board::example`: the demo board. -/
def Board.example : Option (Board × ℕ) := do
  let p := Board.default.add_tile
  let b2 ← p.1.set_pos p.2 (.Pos2 0 0) (cellOfF64 2)
  let b3 ← b2.set_pos p.2 (.Pos2 0 1) (cellOfF64 (35 / 2))
  let b4 ← b3.set_pos p.2 (.Pos2 0 2) (cellOfF64 (189 / 5))
  let b5 ← b4.set_pos p.2 (.Pos2 1 0) (cellOfF64 3)
  let b6 ← b5.set_pos p.2 (.Pos2 1 1) (cellOfF64Vec [1, 2])
  let b7 ← b6.set_pos p.2 (.Pos2 1 2) (cellOfBool true)
  some (b7, p.2)

/-- Is the edge `upstream → downstream` (by `CellId`) present in the
tile's dep graph (through the lookup indices, as `track_dep` adds it)? -/
def hasDep (t : Tile) (u d : CellId) : Bool :=
  match lookupSlot t.lookup u, lookupSlot t.lookup d with
  | some ui, some di => t.deps_edges.contains (ui, di)
  | _, _ => false

/-! ### Scenario and specification-side definitions used by the claims -/

/-- The demo tile of `Board::example` (`getD` defaults never fire: the
claim theorems certify the underlying `Option`s are `some`). -/
def demoTile : Tile :=
  (Board.example.bind (fun p => p.1.get_tile p.2)).getD (Tile.new 0)

/-- The demo tile with the formula `"[0,0]+[1,0]"` stored at `[2,0]`
(the cell write a §4.5 update performs before `eval_cell` runs). -/
def c1Pre : Tile :=
  (demoTile.set_cell (.Pos2 2 0) ⟨Val.Num 0, "[0,0]+[1,0]", ""⟩).getD (Tile.new 0)

/-- The result of `eval_cell` on `[2,0]` of the demo tile. -/
def c1Res : Tile × Option Cell :=
  (Tile.eval_cell 16 c1Pre 0 (.Pos2 2 0)).getD (Tile.new 0, none)

/-- A fresh tile holding the unparsable formula `"("` at `[0,0]`. -/
def c3Pre : Tile :=
  ((Tile.new 0).set_cell (.Pos2 0 0) ⟨Val.Num 0, "(", ""⟩).getD (Tile.new 0)

/-- The result of `eval_cell` on that cell. -/
def c3Res : Tile × Option Cell :=
  (Tile.eval_cell 16 c3Pre 0 (.Pos2 0 0)).getD (Tile.new 0, none)

/-- Specification-side predicate for C2: on which values does the
`Val → i64` conversion return (rather than panic)? -/
def i64ConvOk : Val → Bool
  | .Str s => (parse_i64 s).isSome
  | _ => true

/-- Specification-side predicate for C2: on which values does the
`Val → String` conversion return (rather than panic)? -/
def strConvOk : Val → Bool
  | .Array _ _ => false
  | .Record _ _ => false
  | _ => true

/-- Shape projection for C6: a `List` node's `len` and whether its
`link` is non-null. -/
def listShape : Node → ℕ × Bool
  | .List _ len lnk => (len, lnk.isSome)
  | _ => (0, false)

/-- The 12-element list input of C6. -/
def s12 : String := "1,2,3,4,5,6,7,8,9,10,11,12"

/-- A one-`BinOp` arena over two leaves, used to run C7 through
`Node::eval` itself. -/
def binopProbe (lv rv : Val) : Parser :=
  ⟨[], [.Leaf ⟨0⟩, .Leaf ⟨1⟩], [lv, rv], [none, none, none], 0⟩

/-- A sequence of `set_cell` writes `(col, row, cell)` applied in
order (C9). -/
def applyWrites : Tile → List (ℕ × ℕ × Cell) → Option Tile
  | t, [] => some t
  | t, w :: ws => (t.set_cell (.Pos2 w.1 w.2.1) w.2.2).bind (fun t' => applyWrites t' ws)

/-- A concrete write sequence and its resulting tile (C9 witness). -/
def c9Writes : List (ℕ × ℕ × Cell) := [(0, 2, Cell.default), (1, 0, Cell.default)]

def c9T : Tile := (applyWrites (Tile.new 0) c9Writes).getD (Tile.new 0)

/-! ### Helper lemmas -/

theorem run_pure (a : α) (s : Parser) :
    (pure a : M α).run s = (some a, s) := rfl

theorem run_mfail (s : Parser) :
    (mfail : M α).run s = (none, s) := rfl

theorem run_bind (x : M α) (f : α → M β) (s : Parser) :
    (x >>= f).run s =
      match x.run s with
      | (some a, s') => (f a).run s'
      | (none, s') => (none, s') := rfl

/-- `findIdx?` misses every absent needle. -/
theorem findIdx_eq_none_of_not_mem (l : List String) (x : String) (h : x ∉ l) :
    l.findIdx? (fun hay => hay = x) = none := by
  induction l with
  | nil => rfl
  | cons a as ih =>
      rw [List.findIdx?_cons]
      have ha : ¬ a = x := fun e => h (e ▸ List.mem_cons_self a as)
      simp only [decide_eq_true_eq, ha, if_false, decide_eq_false ha]
      simp [ih (fun hm => h (List.mem_cons_of_mem a hm))]

/-- One in-bounds `set_cell` updates the observed extents to the
running maxima. -/
theorem set_cell_extents (t : Tile) (c r : ℕ) (d : Cell) (t₁ : Tile)
    (hc : c < COL_MAX) (hr : r < ROW_MAX)
    (h : t.set_cell (.Pos2 c r) d = some t₁) :
    t₁.rows = max t.rows (r + 1) ∧ t₁.cols = max t.cols (c + 1) := by
  have hcol : (r * COL_MAX + c) % COL_MAX = c := by
    simp only [COL_MAX] at hc ⊢; omega
  have hrow : (r * COL_MAX + c) / COL_MAX = r := by
    simp only [COL_MAX] at hc ⊢; omega
  have hlt : r * COL_MAX + c < ROW_MAX * COL_MAX := by
    simp only [COL_MAX, ROW_MAX] at hc hr ⊢; omega
  simp only [Tile.set_cell, Tile.resolve, pos_to_cellid, pos_to_index,
    Tile.set_cell_by_id, index_to_pos, hcol, hrow, hlt, if_true] at h
  rw [Option.some_inj] at h
  subst h
  constructor
  · show (if r ≥ t.rows then r + 1 else t.rows) = max t.rows (r + 1)
    split <;> omega
  · show (if c ≥ t.cols then c + 1 else t.cols) = max t.cols (c + 1)
    split <;> omega

/-- Extent tracking over a whole write sequence (C9, generalised to an
arbitrary starting tile). -/
theorem applyWrites_extents :
    ∀ (ws : List (ℕ × ℕ × Cell)) (t t' : Tile),
    (∀ w ∈ ws, w.1 < COL_MAX ∧ w.2.1 < ROW_MAX) →
    applyWrites t ws = some t' →
    t'.rows = ws.foldl (fun a w => max a (w.2.1 + 1)) t.rows ∧
    t'.cols = ws.foldl (fun a w => max a (w.1 + 1)) t.cols := by
  intro ws
  induction ws with
  | nil =>
      intro t t' _ h
      rw [show applyWrites t [] = some t from rfl, Option.some_inj] at h
      subst h; exact ⟨rfl, rfl⟩
  | cons w ws ih =>
      intro t t' hb h
      rw [show applyWrites t (w :: ws) =
        (t.set_cell (.Pos2 w.1 w.2.1) w.2.2).bind (fun tx => applyWrites tx ws) from rfl] at h
      cases hset : t.set_cell (.Pos2 w.1 w.2.1) w.2.2 with
      | none => rw [hset] at h; cases h
      | some t₁ =>
          rw [hset, Option.some_bind] at h
          have hw := hb w (List.mem_cons_self w ws)
          have hstep := set_cell_extents t w.1 w.2.1 w.2.2 t₁ hw.1 hw.2 hset
          have hrest := ih t₁ t' (fun x hx => hb x (List.mem_cons_of_mem w hx)) h
          rw [List.foldl_cons, List.foldl_cons]
          exact ⟨by rw [hrest.1, hstep.1], by rw [hrest.2, hstep.2]⟩

/-! ### The claims -/

/-- C8: for every `(col, row)` with `col < COL_MAX` and `row < ROW_MAX`,
`index_to_pos (pos_to_index col row) = (col, row)`. -/
theorem C8_round_trip (col row : ℕ) (hc : col < COL_MAX) (hr : row < ROW_MAX) :
    index_to_pos (pos_to_index col row) = (col, row) := by
  have h1 : (row * COL_MAX + col) % COL_MAX = col := by
    simp only [COL_MAX] at hc ⊢; omega
  have h2 : (row * COL_MAX + col) / COL_MAX = row := by
    simp only [COL_MAX] at hc ⊢; omega
  simp [index_to_pos, pos_to_index, h1, h2]

/-- C8 witness at `(3, 4)`. -/
theorem C8_round_trip_witness :
    3 < COL_MAX ∧ 4 < ROW_MAX ∧ index_to_pos (pos_to_index 3 4) = (3, 4) :=
  ⟨by decide, by decide, C8_round_trip 3 4 (by decide) (by decide)⟩

/-- C10: a label absent from the tile's label array resolves to
position 0, and an all-unknown `Label` reference resolves to
`CellId(0)` (column A, row 1). -/
theorem C10_unknown_labels (t : Tile) (l1 l2 : String)
    (h1 : l1 ∉ t.lbls) (h2 : l2 ∉ t.lbls) :
    t.pos_for [l1] = [0] ∧ t.pos_for [l1, l2] = [0, 0] ∧
    t.resolve (.Label2 l1 l2) = ⟨0⟩ := by
  have e1 : t.pos_for [l1] = [0] := by
    simp [Tile.pos_for, findIdx_eq_none_of_not_mem _ _ h1]
  have e2 : t.pos_for [l1, l2] = [0, 0] := by
    simp [Tile.pos_for, findIdx_eq_none_of_not_mem _ _ h1,
      findIdx_eq_none_of_not_mem _ _ h2]
  refine ⟨e1, e2, ?_⟩
  simp [Tile.resolve, e2, pos_to_cellid, pos_to_index]

/-- C10 witness: the lower-case column letter `"a"` and the
out-of-range row number `"99"` on a fresh tile. -/
theorem C10_unknown_labels_witness :
    ("a" ∉ (Tile.new 0).lbls) ∧ ("99" ∉ (Tile.new 0).lbls) ∧
    (Tile.new 0).pos_for ["a", "99"] = [0, 0] ∧
    (Tile.new 0).resolve (.Label2 "a" "99") = ⟨0⟩ := by
  have h1 : "a" ∉ (Tile.new 0).lbls := by decide
  have h2 : "99" ∉ (Tile.new 0).lbls := by decide
  exact ⟨h1, h2, (C10_unknown_labels (Tile.new 0) "a" "99" h1 h2).2.1,
    (C10_unknown_labels (Tile.new 0) "a" "99" h1 h2).2.2⟩

/-- C2 counterexample: the conversions are not total — `Val → i64`
panics on the scalar `Str "x"` and `Val → String` panics on `Array` and
`Record` instead of producing a comma-joined form. -/
theorem C2_counterexample :
    i64_from_val (.Str "x") = none ∧
    string_from_val (.Array [] []) = none ∧
    string_from_val (.Record [] 0) = none := ⟨rfl, rfl, rfl⟩

/-- C2 (amended): `&Val → Decimal` is total; `Val → i64` returns on
every non-`Str` value (aggregates give 0) and on `Str` exactly when the
string parses as an i64; `Val → String` returns on everything except
`Array`/`Record`, with `List` comma-joined. -/
theorem C2_conversions :
    (∀ v, (i64_from_val v).isSome = i64ConvOk v) ∧
    (∀ v, (string_from_val v).isSome = strConvOk v) ∧
    (∀ l, i64_from_val (.List l) = some 0) ∧
    (∀ v d, i64_from_val (.Array v d) = some 0) ∧
    (∀ v f, i64_from_val (.Record v f) = some 0) ∧
    (∀ l, dec_from_val (.List l) = 0) ∧
    (∀ v d, dec_from_val (.Array v d) = 0) ∧
    (∀ v f, dec_from_val (.Record v f) = 0) ∧
    (∀ l, string_from_val (.List l) =
      some (String.intercalate "," (l.map valToString))) := by
  refine ⟨?_, ?_, fun l => rfl, fun v d => rfl, fun v f => rfl, fun l => rfl,
    fun v d => rfl, fun v f => rfl, fun l => rfl⟩
  · intro v; cases v <;> simp [i64_from_val, i64ConvOk]
  · intro v; cases v <;> simp [string_from_val, strConvOk]

/-- C5 counterexample: `"[1]"` parses to an `Index` with
`row = NodeId(1)` and `col = NodeId(0)` — not `col = NodeId(1)`,
`row = NodeId(0)` as claimed. -/
theorem C5_counterexample :
    (Parser.parse "[1]").1 = some (.Index ⟨1⟩ ⟨0⟩) ∧
    (Parser.parse "[1]").1 ≠ some (.Index ⟨0⟩ ⟨1⟩) := by
  have h : (Parser.parse "[1]").1 = some (.Index ⟨1⟩ ⟨0⟩) := rfl
  exact ⟨h, by rw [h]; decide⟩

/-- C5 (amended): parsing `"[1]"` yields an `Index` node whose `row`
field is `NodeId(1)` (the pushed `Leaf`) and whose `col` field is
`NodeId(0)` — as the repository's own `test_parser_index` asserts. -/
theorem C5_index_fields :
    (Parser.parse "[1]").1 = some (.Index ⟨1⟩ ⟨0⟩) := rfl

/-- C6: the 12-element list input parses to a `List` root with
`len = 12` and a non-null `link`, and evaluates to the twelve values
`Num(1) … Num(12)` in order. -/
theorem C6_twelve_list :
    ((Parser.parse s12).1).map listShape = some (12, true) ∧
    parseEval s12 = some (.List [.Num 1, .Num 2, .Num 3, .Num 4, .Num 5, .Num 6,
      .Num 7, .Num 8, .Num 9, .Num 10, .Num 11, .Num 12]) := ⟨rfl, rfl⟩

/-- C7: broadcasting a scalar over a list preserves the operator's
argument order, both at the `BinOp` dispatch table and through
`Node::eval` on a two-leaf arena. -/
theorem C7_broadcast (op : Char) (l : List Val) (n : ℚ) :
    binopDispatch (opFn op) (.List l) (.Num n)
      = .List (l.map fun v => .Num (opFn op (dec_from_val v) n)) ∧
    binopDispatch (opFn op) (.Num n) (.List l)
      = .List (l.map fun v => .Num (opFn op n (dec_from_val v))) ∧
    evalNode (parserCtx (binopProbe (.List l) (.Num n))) 2 (.BinOp op ⟨0⟩ ⟨1⟩) ()
      = some (.List (l.map fun v => .Num (opFn op (dec_from_val v) n)), ()) ∧
    evalNode (parserCtx (binopProbe (.Num n) (.List l))) 2 (.BinOp op ⟨0⟩ ⟨1⟩) ()
      = some (.List (l.map fun v => .Num (opFn op n (dec_from_val v))), ()) :=
  ⟨rfl, rfl, rfl, rfl⟩

/-- C9: starting from `Tile::new`, after any in-bounds `set_cell`
sequence the observed `rows` is one plus the largest row index written
(zero when nothing was written), and symmetrically for `cols`
(`foldl max` of the successor indices computes exactly that). -/
theorem C9_extents (tg : ℕ) (ws : List (ℕ × ℕ × Cell)) (t' : Tile)
    (hb : ∀ w ∈ ws, w.1 < COL_MAX ∧ w.2.1 < ROW_MAX)
    (h : applyWrites (Tile.new tg) ws = some t') :
    t'.rows = ws.foldl (fun a w => max a (w.2.1 + 1)) 0 ∧
    t'.cols = ws.foldl (fun a w => max a (w.1 + 1)) 0 :=
  applyWrites_extents ws (Tile.new tg) t' hb h

/-- C9 witness: writes at `[0,2]` and `[1,0]` give `rows = 3`,
`cols = 2`. -/
theorem C9_extents_witness : c9T.rows = 3 ∧ c9T.cols = 2 := by
  have h := C9_extents 0 c9Writes c9T (by decide) rfl
  simpa using h

/-- C3 counterexample: updating a fresh cell with the unparsable
formula `"("` does write `Str("error")` and adds no edge, but the dep
graph does not stay unchanged — `set_cell_by_id` appends a node for the
target cell. -/
theorem C3_counterexample :
    Tile.eval_cell 16 c3Pre 0 (.Pos2 0 0) = some c3Res ∧
    c3Res.2 = none ∧
    (c3Res.1.get_cell_by_id ⟨0⟩).map (·.value) = some (.Str "error") ∧
    c3Res.1.deps_nodes ≠ c3Pre.deps_nodes := by
  refine ⟨rfl, rfl, rfl, ?_⟩
  have h1 : c3Res.1.deps_nodes = [⟨0⟩, ⟨0⟩] := rfl
  have h2 : c3Pre.deps_nodes = [⟨0⟩] := rfl
  rw [h1, h2]
  decide

/-- C3 (amended): when the stored formula of the addressed cell fails
to parse, `eval_cell` writes `Str("error")` into it, adds and removes
no dependency edge, but appends one (duplicate) graph node for the
target cell — the node set grows. -/
theorem C3_parse_failure (fuel tid : ℕ) (t : Tile) (cref : CellRef) (cell : Cell)
    (t' : Tile) (c? : Option Cell)
    (hcell : t.get_cell_by_id (t.resolve cref) = some cell)
    (hparse : (Parser.parse cell.formula).1 = none)
    (heval : Tile.eval_cell (fuel + 1) t tid cref = some (t', c?)) :
    c? = none ∧
    (t'.get_cell_by_id (t.resolve cref)).map (·.value) = some (.Str "error") ∧
    t'.deps_edges = t.deps_edges ∧
    t'.deps_nodes = t.deps_nodes ++ [t.resolve cref] := by
  have hlt : (t.resolve cref).val < ROW_MAX * COL_MAX := by
    by_contra hge
    simp [Tile.get_cell_by_id, hge] at hcell
  rcases hp : Parser.parse cell.formula with ⟨r, p'⟩
  rw [hp] at hparse
  subst hparse
  unfold Tile.eval_cell at heval
  generalize hcid : t.resolve cref = cid at hlt hcell heval ⊢
  simp only [hcell, hp, Tile.update_cell, Tile.resolve, Tile.set_cell_by_id,
    hlt, if_true, Option.some_bind, Option.bind_some] at heval
  simp only [Option.bind_eq_bind', Option.some_bind'] at heval
  rw [Option.some_inj, Prod.mk.injEq] at heval
  obtain ⟨ht, hc⟩ := heval
  subst ht
  subst hc
  refine ⟨rfl, ?_, rfl, rfl⟩
  simp [Tile.get_cell_by_id, hlt, Function.update_same]

/-- C3 witness: the amended statement at the concrete `"("` update. -/
theorem C3_parse_failure_witness :
    c3Res.2 = none ∧
    (c3Res.1.get_cell_by_id (c3Pre.resolve (.Pos2 0 0))).map (·.value) =
      some (.Str "error") ∧
    c3Res.1.deps_edges = c3Pre.deps_edges ∧
    c3Res.1.deps_nodes = c3Pre.deps_nodes ++ [c3Pre.resolve (.Pos2 0 0)] :=
  C3_parse_failure 15 0 c3Pre (.Pos2 0 0) ⟨Val.Num 0, "(", ""⟩ c3Res.1 c3Res.2
    rfl rfl rfl

/-- C1 counterexample: on the demo tile, updating `[2,0]` with
`"[0,0]+[1,0]"` does not produce `Num(5)` with both edges — the stored
value is `Float(2.0)` and the edge `[1,0] → [2,0]` is absent. -/
theorem C1_counterexample :
    ¬ (((c1Res.1.get_cell_by_id ⟨2⟩).map (·.value) = some (.Num 5)) ∧
       hasDep c1Res.1 ⟨0⟩ ⟨2⟩ = true ∧ hasDep c1Res.1 ⟨1⟩ ⟨2⟩ = true) := by
  intro h
  have h1 : (c1Res.1.get_cell_by_id ⟨2⟩).map (·.value) = some (Val.Float 2) := rfl
  rw [h1] at h
  exact absurd h.1 (by decide)

/-- C1 (amended): `"[0,0]+[1,0]"` parses only as the leading `Index`
(`binop` demands a `term` on the left, which an index is not), so the
update stores the value of cell `[0,0]` — `Float(2.0)` — into `[2,0]`
and records only the edge `[0,0] → [2,0]`. -/
theorem C1_demo_update :
    Board.example.isSome = true ∧
    (Board.example.bind (fun p => p.1.get_tile p.2)) = some demoTile ∧
    (demoTile.get_cell_by_id ⟨0⟩).map (·.value) = some (.Float 2) ∧
    (demoTile.get_cell_by_id ⟨1⟩).map (·.value) = some (.Float 3) ∧
    demoTile.set_cell (.Pos2 2 0) ⟨Val.Num 0, "[0,0]+[1,0]", ""⟩ = some c1Pre ∧
    (Parser.parse "[0,0]+[1,0]").1 = some (.Index ⟨1⟩ ⟨2⟩) ∧
    (Parser.parse "[0,0]+[1,0]").2.pos = 5 ∧
    Tile.eval_cell 16 c1Pre 0 (.Pos2 2 0) = some c1Res ∧
    (c1Res.1.get_cell_by_id ⟨2⟩).map (·.value) = some (.Float 2) ∧
    (c1Res.1.get_cell_by_id ⟨2⟩).map (·.formula) = some "[0,0]+[1,0]" ∧
    hasDep c1Res.1 ⟨0⟩ ⟨2⟩ = true ∧
    hasDep c1Res.1 ⟨1⟩ ⟨2⟩ = false :=
  ⟨rfl, rfl, rfl, rfl, rfl, rfl, rfl, rfl, rfl, rfl, rfl, rfl⟩

theorem gapOnly_refl (buf : List Char) (a : ℕ) (h : a ≤ buf.length) :
    gapOnly buf a a :=
  ⟨le_refl a, h, by simp⟩

theorem gapOnly_trans {buf : List Char} {a b c : ℕ}
    (h1 : gapOnly buf a b) (h2 : gapOnly buf b c) : gapOnly buf a c := by
  obtain ⟨hab, hbl, he1⟩ := h1
  obtain ⟨hbc, hcl, he2⟩ := h2
  refine ⟨le_trans hab hbc, hcl, ?_⟩
  have hsum : c - a = (b - a) + (c - b) := by omega
  rw [hsum, List.take_add, List.replicate_add, he1, List.drop_drop]
  have hba : a + (b - a) = b := by omega
  rw [hba, he2]

theorem gapOnly_single {buf : List Char} {p : ℕ} (h : buf.get? p = some ',') :
    gapOnly buf p (p + 1) := by
  obtain ⟨hlt, hg⟩ := List.get?_eq_some.mp h
  refine ⟨Nat.le_succ p, hlt, ?_⟩
  simp only [Nat.add_sub_cancel_left]
  rw [List.take_one_drop_eq_of_lt_length hlt, hg]
  rfl

theorem tiled_le {buf : List Char} :
    ∀ {ts : List Token} {a pos : ℕ}, tiled buf ts a pos → a ≤ pos ∧ pos ≤ buf.length
  | [], _, _, h => ⟨h.1, h.2.1⟩
  | t :: ts, a, pos, h => by
      obtain ⟨hg, _, htl⟩ := h
      have ih := tiled_le htl
      exact ⟨le_trans hg.1 (le_trans (Nat.le_add_right _ _) ih.1), ih.2⟩

theorem tiled_gap {buf : List Char} :
    ∀ {ts : List Token} {a p q : ℕ}, tiled buf ts a p → gapOnly buf p q → tiled buf ts a q
  | [], _, _, _, h, hg => gapOnly_trans h hg
  | t :: ts, a, p, q, h, hg => by
      obtain ⟨h1, h2, h3⟩ := h
      exact ⟨h1, h2, tiled_gap h3 hg⟩

theorem tiled_snoc {buf : List Char} (tag : Tok) :
    ∀ {ts : List Token} {a p q : ℕ}, tiled buf ts a p → p ≤ q → q ≤ buf.length →
      tiled buf (ts ++ [⟨p, q - p, tag⟩]) a q
  | [], a, p, q, h, hpq, hq => by
      refine ⟨h, ?_, ?_⟩
      · show p + (q - p) ≤ buf.length
        omega
      · show tiled buf [] (p + (q - p)) q
        have he : p + (q - p) = q := by omega
        rw [he]
        exact gapOnly_refl buf q hq
  | t :: ts, a, p, q, h, hpq, hq => by
      obtain ⟨h1, h2, h3⟩ := h
      exact ⟨h1, h2, tiled_snoc tag h3 hpq hq⟩

theorem tiled_decomp {buf : List Char} :
    ∀ {ts : List Token} {a pos : ℕ}, tiled buf ts a pos →
      (buf.drop a).take (pos - a) = joinGapped buf ts a pos
  | [], a, pos, h => by
      simp only [joinGapped]
      exact h.2.2
  | t :: ts, a, pos, h => by
      obtain ⟨hg, hlen, htl⟩ := h
      have hle := tiled_le htl
      have h1 : a ≤ t.pos := hg.1
      have hsum : pos - a = (t.pos - a) + (t.len + (pos - (t.pos + t.len))) := by omega
      rw [hsum, List.take_add, List.drop_drop]
      have e1 : a + (t.pos - a) = t.pos := by omega
      rw [e1, List.take_add, List.drop_drop, hg.2.2, tiled_decomp htl]
      simp only [joinGapped, tok_value, List.append_assoc]

theorem run_next (buf : List Char) (s : Parser) :
    (next buf).run s = match buf.get? s.pos with
      | some c => (some c, { s with pos := s.pos + 1 })
      | none => (none, s) := rfl

theorem run_getS (s : Parser) : getS.run s = (some s, s) := rfl

theorem run_push_node (n : Node) (s : Parser) :
    (push_node n).run s = (some ⟨s.nodes.length⟩, { s with nodes := s.nodes ++ [n] }) := rfl

theorem run_push_value (v : Val) (s : Parser) :
    (push_value v).run s = (some ⟨s.values.length⟩, { s with values := s.values ++ [v] }) := rfl

theorem run_get_node (id : NodeId) (s : Parser) :
    (get_node id).run s = (s.nodes.get? id.val, s) := rfl

theorem run_left (key : ℕ) (s : Parser) :
    (left key).run s = match s.memos.get? key with
      | some (some r) => (r, s)
      | some none => (none, s)
      | none => (none, s) := rfl

theorem run_push_tok (tag : Tok) (rule : M α) (s : Parser) :
    (push_tok tag rule).run s = match rule.run s with
      | (some a, s') =>
          if s'.pos < s.pos then (none, s')
          else (some a, { s' with tokens := s'.tokens ++ [⟨s.pos, s'.pos - s.pos, tag⟩] })
      | (none, s') => (none, s') := rfl

theorem run_yield_tok (tag : Tok) (rule : M α) (s : Parser) :
    (yield_tok tag rule).run s = match rule.run s with
      | (some _, s') =>
          if s'.pos < s.pos then (none, s')
          else
            (some ⟨s.pos, s'.pos - s.pos, tag⟩,
             { s' with tokens := s'.tokens ++ [⟨s.pos, s'.pos - s.pos, tag⟩] })
      | (none, s') => (none, s') := rfl

theorem run_maybe (d : α) (rule : M α) (s : Parser) :
    (maybe d rule).run s = match rule.run s with
      | (some a, s') => (some a, s')
      | (none, s') => (some d, { s' with pos := s.pos }) := rfl

theorem run_match_ws (buf : List Char) (s : Parser) :
    (match_ws buf).run s = match (next buf).run s with
      | (some c, s1) =>
          if c.isWhitespace then
            (some c,
             if (wsDrain buf (buf.length + 1) s1).pos ≠ buf.length then
               { wsDrain buf (buf.length + 1) s1 with
                   pos := (wsDrain buf (buf.length + 1) s1).pos - 1 }
             else wsDrain buf (buf.length + 1) s1)
          else (none, s1)
      | (none, s1) => (none, s1) := rfl

theorem run_select (rules : List (M α)) (s : Parser) :
    (select rules).run s = selGo rules (saveOf s) s := rfl

theorem run_zero_or_more (buf : List Char) (d : α) (rule : M α) (s : Parser) :
    (zero_or_more buf d rule).run s = zomGo (buf.length + 2) rule (some d) (saveOf s) s := rfl

theorem run_leftpoline (buf : List Char) (key : ℕ) (rule : M Node) (s : Parser) :
    (leftpoline buf key rule).run s = lpGo key rule s.pos (buf.length + 2) none 0 s := rfl

theorem inert_noTok {buf : List Char} {r : M α} (h : Inert r) : NoTok buf r :=
  fun s => ⟨(h s).1, fun hp => (h s).2 ▸ hp⟩

theorem inert_pure (a : α) : Inert (pure a : M α) := fun _ => ⟨rfl, rfl⟩

theorem inert_mfail : Inert (mfail : M α) := fun _ => ⟨rfl, rfl⟩

theorem inert_getS : Inert getS := fun _ => ⟨rfl, rfl⟩

theorem inert_push_node (n : Node) : Inert (push_node n) := fun _ => ⟨rfl, rfl⟩

theorem inert_push_value (v : Val) : Inert (push_value v) := fun _ => ⟨rfl, rfl⟩

theorem inert_get_node (id : NodeId) : Inert (get_node id) := by
  intro s
  rw [run_get_node]
  exact ⟨rfl, rfl⟩

theorem inert_left (key : ℕ) : Inert (left key) := by
  intro s
  rw [run_left]
  cases h : s.memos.get? key with
  | none => exact ⟨rfl, rfl⟩
  | some r => cases r with
    | none => exact ⟨rfl, rfl⟩
    | some n => exact ⟨rfl, rfl⟩

theorem inert_bind {r : M α} {f : α → M β} (hr : Inert r) (hf : ∀ a, Inert (f a)) :
    Inert (r >>= f) := by
  intro s
  have h1 := hr s
  rw [run_bind]
  cases hrs : r.run s with
  | mk a? s' =>
    rw [hrs] at h1
    cases a? with
    | none => exact h1
    | some a =>
      have h2 := hf a s'
      exact ⟨h2.1.trans h1.1, h2.2.trans h1.2⟩

theorem noTok_bind {buf : List Char} {r : M α} {f : α → M β}
    (hr : NoTok buf r) (hf : ∀ a, NoTok buf (f a)) : NoTok buf (r >>= f) := by
  intro s
  have h1 := hr s
  rw [run_bind]
  cases hrs : r.run s with
  | mk a? s' =>
    rw [hrs] at h1
    cases a? with
    | none => exact h1
    | some a =>
      have h2 := hf a s'
      exact ⟨h2.1.trans h1.1, fun hp => h2.2 (h1.2 hp)⟩

theorem noTok_next (buf : List Char) : NoTok buf (next buf) := by
  intro s
  rw [run_next]
  cases h : buf.get? s.pos with
  | none => exact ⟨rfl, fun hp => hp⟩
  | some c =>
      refine ⟨rfl, fun _ => ?_⟩
      obtain ⟨hlt, -⟩ := List.get?_eq_some.mp h
      exact hlt

theorem noTok_char (buf : List Char) (c : Char) : NoTok buf (char buf c) := by
  unfold char
  refine noTok_bind (noTok_next buf) (fun a => ?_)
  dsimp only
  split
  · exact inert_noTok (inert_pure _)
  · exact inert_noTok inert_mfail

theorem noTok_not_char (buf : List Char) (c : Char) : NoTok buf (not_char buf c) := by
  unfold not_char
  refine noTok_bind (noTok_next buf) (fun a => ?_)
  dsimp only
  split
  · exact inert_noTok (inert_pure _)
  · exact inert_noTok inert_mfail

theorem noTok_cls (buf : List Char) (chars : List Char) : NoTok buf (cls buf chars) := by
  unfold cls
  refine noTok_bind (noTok_next buf) (fun a => ?_)
  dsimp only
  split
  · exact inert_noTok (inert_pure _)
  · exact inert_noTok inert_mfail

theorem noTok_cls_caseins (buf : List Char) (chars : List Char) :
    NoTok buf (cls_caseins buf chars) := by
  unfold cls_caseins
  refine noTok_bind (noTok_next buf) (fun a => ?_)
  dsimp only
  split
  · exact inert_noTok (inert_pure _)
  · exact inert_noTok inert_mfail

theorem noTok_foldl_chars (buf : List Char) (l : List Char) (r0 : Char) :
    NoTok buf (l.foldlM (fun _ ch => char buf ch) r0 : M Char) := by
  induction l generalizing r0 with
  | nil =>
      rw [List.foldlM_nil]
      exact inert_noTok (inert_pure r0)
  | cons c cs ih =>
      rw [List.foldlM_cons]
      exact noTok_bind (noTok_char buf c) (fun a => ih a)

theorem noTok_scan_string (buf : List Char) (needle : List Char) (cr : Char → M Char)
    (hcr : ∀ c, NoTok buf (cr c)) : NoTok buf (scan_string buf needle cr) := by
  unfold scan_string
  cases needle with
  | nil => exact inert_noTok inert_mfail
  | cons c rest => exact noTok_bind (hcr c) (fun a => noTok_foldl_chars buf rest a)

theorem noTok_string (buf : List Char) (needle : String) : NoTok buf (string buf needle) :=
  noTok_scan_string buf needle.data _ (fun c => noTok_char buf c)

theorem noTok_maybe {buf : List Char} {r : M α} (d : α) (h : NoTok buf r) :
    NoTok buf (maybe d r) := by
  intro s
  rw [run_maybe]
  have h1 := h s
  cases hrs : r.run s with
  | mk a? s' =>
    rw [hrs] at h1
    cases a? with
    | some a => exact h1
    | none => exact ⟨h1.1, fun hp => hp⟩

theorem noTok_selGo {buf : List Char} :
    ∀ (rs : List (M α)) (st : ParseState) (s : Parser),
      (∀ r ∈ rs, NoTok buf r) → st.len_toks = s.tokens.length →
      ((selGo rs st s).2.tokens = s.tokens ∧
        (st.pos ≤ buf.length → s.pos ≤ buf.length → (selGo rs st s).2.pos ≤ buf.length))
  | [], _, s, _, _ => ⟨rfl, fun _ hp => hp⟩
  | r :: rs, st, s, hall, hlt => by
      have h1 := hall r (List.mem_cons_self r rs) s
      simp only [selGo]
      cases hrs : r.run s with
      | mk a? s' =>
        rw [hrs] at h1
        cases a? with
        | some a => exact ⟨h1.1, fun _ hp => h1.2 hp⟩
        | none =>
            have htk : (rollbackFun st s').tokens = s.tokens := by
              show s'.tokens.take st.len_toks = s.tokens
              rw [h1.1, hlt, List.take_length]
            have ih := noTok_selGo rs st (rollbackFun st s')
              (fun r hr => hall r (List.mem_cons_of_mem _ hr))
              (by rw [htk, hlt])
            refine ⟨ih.1.trans htk, fun hst _ => ih.2 hst ?_⟩
            show st.pos ≤ buf.length
            exact hst

theorem noTok_select {buf : List Char} (rs : List (M α)) (h : ∀ r ∈ rs, NoTok buf r) :
    NoTok buf (select rs) := by
  intro s
  rw [run_select]
  have hz := noTok_selGo rs (saveOf s) s h rfl
  exact ⟨hz.1, fun hp => hz.2 hp hp⟩

theorem noTok_zomGo {buf : List Char} {rule : M α} (h : NoTok buf rule) :
    ∀ (fuel : ℕ) (last : Option α) (st : ParseState) (s : Parser),
      st.len_toks = s.tokens.length →
      ((zomGo fuel rule last st s).2.tokens = s.tokens ∧
        (st.pos ≤ buf.length → s.pos ≤ buf.length →
          (zomGo fuel rule last st s).2.pos ≤ buf.length))
  | 0, _, _, s, _ => ⟨rfl, fun _ hp => hp⟩
  | fuel + 1, last, st, s, hlt => by
      have h1 := h s
      simp only [zomGo]
      cases hrs : rule.run s with
      | mk a? s' =>
        rw [hrs] at h1
        cases a? with
        | none =>
            refine ⟨?_, fun hst _ => hst⟩
            show s'.tokens.take st.len_toks = s.tokens
            rw [h1.1, hlt, List.take_length]
        | some a =>
            have ih := noTok_zomGo h fuel (some a) (saveOf s') s' rfl
            refine ⟨ih.1.trans h1.1, fun _ hp => ?_⟩
            have hp' := h1.2 hp
            exact ih.2 hp' hp'

theorem noTok_zero_or_more {buf : List Char} (d : α) {rule : M α} (h : NoTok buf rule) :
    NoTok buf (zero_or_more buf d rule) := by
  intro s
  rw [run_zero_or_more]
  have hz := noTok_zomGo h (buf.length + 2) (some d) (saveOf s) s rfl
  exact ⟨hz.1, fun hp => hz.2 hp hp⟩

theorem noTok_one_or_more {buf : List Char} (d : α) {rule : M α} (h : NoTok buf rule) :
    NoTok buf (one_or_more buf d rule) := by
  unfold one_or_more
  exact noTok_bind h (fun a =>
    noTok_bind (noTok_zero_or_more d h) (fun _ => inert_noTok (inert_pure a)))

theorem wsDrain_spec (buf : List Char) :
    ∀ (fuel : ℕ) (s : Parser), (wsDrain buf fuel s).tokens = s.tokens ∧
      (s.pos ≤ buf.length → (wsDrain buf fuel s).pos ≤ buf.length)
  | 0, s => ⟨rfl, fun hp => hp⟩
  | fuel + 1, s => by
      have hn := noTok_next buf s
      simp only [wsDrain]
      split
      next c s' heq =>
        rw [heq] at hn
        split
        next hws =>
          have ih := wsDrain_spec buf fuel s'
          exact ⟨ih.1.trans hn.1, fun hp => ih.2 (hn.2 hp)⟩
        next hws => exact hn
      next s' heq =>
        rw [heq] at hn
        exact hn

theorem noTok_match_ws (buf : List Char) : NoTok buf (match_ws buf) := by
  intro s
  rw [run_match_ws]
  have hn := noTok_next buf s
  split
  next c s1 heq =>
    rw [heq] at hn
    split
    next hws =>
      have hd := wsDrain_spec buf (buf.length + 1) s1
      constructor
      · by_cases hp : (wsDrain buf (buf.length + 1) s1).pos ≠ buf.length
        · rw [if_pos hp]
          exact hd.1.trans hn.1
        · rw [if_neg hp]
          exact hd.1.trans hn.1
      · intro hps
        have h1 := hd.2 (hn.2 hps)
        by_cases hp : (wsDrain buf (buf.length + 1) s1).pos ≠ buf.length
        · rw [if_pos hp]
          show (wsDrain buf (buf.length + 1) s1).pos - 1 ≤ buf.length
          omega
        · rw [if_neg hp]
          exact h1
    next hws => exact hn
  next s1 heq =>
    rw [heq] at hn
    exact hn

theorem noTok_match_num_nonzero (buf : List Char) : NoTok buf (match_num_nonzero buf) := by
  unfold match_num_nonzero
  refine noTok_bind (noTok_maybe _ (noTok_char buf _)) (fun _ => ?_)
  refine noTok_bind (noTok_cls buf _) (fun _ => ?_)
  refine noTok_bind (noTok_zero_or_more _ (noTok_cls buf _)) (fun _ => ?_)
  refine noTok_bind (noTok_maybe _ (noTok_char buf _)) (fun _ => ?_)
  exact noTok_zero_or_more _ (noTok_cls buf _)

theorem noTok_match_num_zero (buf : List Char) : NoTok buf (match_num_zero buf) :=
  noTok_char buf '0'

theorem noTok_match_string (buf : List Char) (bookend : Char) :
    NoTok buf (match_string buf bookend) := by
  unfold match_string
  refine noTok_bind (noTok_char buf _) (fun _ => ?_)
  refine noTok_bind (noTok_zero_or_more _ (noTok_not_char buf _)) (fun _ => ?_)
  exact noTok_bind (noTok_char buf _) (fun _ => inert_noTok (inert_pure _))

theorem tpresU_tpresS {buf : List Char} {r : M α} (h : TPresU buf r) : TPresS buf r :=
  fun s => ⟨(h s).1, fun ht _ => (h s).2 ht⟩

theorem inert_tpresU {buf : List Char} {r : M α} (h : Inert r) : TPresU buf r := by
  intro s
  have h1 := h s
  refine ⟨?_, fun ht => ?_⟩
  · rw [h1.1]
  · rw [h1.1, h1.2]
    exact ht

theorem tpresS_bind {buf : List Char} {r : M α} {f : α → M β}
    (hr : TPresS buf r) (hf : ∀ a, TPresS buf (f a)) : TPresS buf (r >>= f) := by
  intro s
  have h1 := hr s
  rw [run_bind]
  cases hrs : r.run s with
  | mk a? s' =>
    rw [hrs] at h1
    cases a? with
    | none => exact ⟨h1.1, fun _ hs => Bool.noConfusion hs⟩
    | some a =>
        have h2 := hf a s'
        exact ⟨h1.1.trans h2.1, fun ht hs => h2.2 (h1.2 ht rfl) hs⟩

theorem tpresU_bind {buf : List Char} {r : M α} {f : α → M β}
    (hr : TPresU buf r) (hf : ∀ a, TPresU buf (f a)) : TPresU buf (r >>= f) := by
  intro s
  have h1 := hr s
  rw [run_bind]
  cases hrs : r.run s with
  | mk a? s' =>
    rw [hrs] at h1
    cases a? with
    | none => exact h1
    | some a =>
        have h2 := hf a s'
        exact ⟨h1.1.trans h2.1, fun ht => h2.2 (h1.2 ht)⟩

theorem tpresS_push_tok {buf : List Char} (tag : Tok) {r : M α} (h : NoTok buf r) :
    TPresS buf (push_tok tag r) := by
  intro s
  rw [run_push_tok]
  have h1 := h s
  cases hrs : r.run s with
  | mk a? s' =>
    rw [hrs] at h1
    cases a? with
    | none =>
        refine ⟨?_, fun _ hs => Bool.noConfusion hs⟩
        rw [h1.1]
    | some a =>
        dsimp only
        by_cases hlt : s'.pos < s.pos
        · rw [if_pos hlt]
          refine ⟨?_, fun _ hs => Bool.noConfusion hs⟩
          rw [h1.1]
        · rw [if_neg hlt]
          refine ⟨?_, fun ht _ => ?_⟩
          · show s.tokens <+: s'.tokens ++ [⟨s.pos, s'.pos - s.pos, tag⟩]
            rw [h1.1]
            exact List.prefix_append _ _
          · show tiled buf (s'.tokens ++ [⟨s.pos, s'.pos - s.pos, tag⟩]) 0 s'.pos
            rw [h1.1]
            exact tiled_snoc tag ht (Nat.le_of_not_lt hlt) (h1.2 (tiled_le ht).2)

theorem tpresS_yield_tok {buf : List Char} (tag : Tok) {r : M α} (h : NoTok buf r) :
    TPresS buf (yield_tok tag r) := by
  intro s
  rw [run_yield_tok]
  have h1 := h s
  cases hrs : r.run s with
  | mk a? s' =>
    rw [hrs] at h1
    cases a? with
    | none =>
        refine ⟨?_, fun _ hs => Bool.noConfusion hs⟩
        rw [h1.1]
    | some a =>
        dsimp only
        by_cases hlt : s'.pos < s.pos
        · rw [if_pos hlt]
          refine ⟨?_, fun _ hs => Bool.noConfusion hs⟩
          rw [h1.1]
        · rw [if_neg hlt]
          refine ⟨?_, fun ht _ => ?_⟩
          · show s.tokens <+: s'.tokens ++ [⟨s.pos, s'.pos - s.pos, tag⟩]
            rw [h1.1]
            exact List.prefix_append _ _
          · show tiled buf (s'.tokens ++ [⟨s.pos, s'.pos - s.pos, tag⟩]) 0 s'.pos
            rw [h1.1]
            exact tiled_snoc tag ht (Nat.le_of_not_lt hlt) (h1.2 (tiled_le ht).2)

theorem char_run (buf : List Char) (c : Char) (s : Parser) :
    (char buf c).run s = match buf.get? s.pos with
      | some c' => if c' = c then (some c, { s with pos := s.pos + 1 })
                   else (none, { s with pos := s.pos + 1 })
      | none => (none, s) := by
  show ((next buf) >>= fun item => if item = c then pure c else mfail).run s = _
  rw [run_bind, run_next]
  cases h : buf.get? s.pos with
  | none => rfl
  | some c' =>
      dsimp only
      by_cases he : c' = c
      · rw [if_pos he, if_pos he]
        rfl
      · rw [if_neg he, if_neg he]
        rfl

theorem tpresS_char_comma (buf : List Char) : TPresS buf (char buf ',') := by
  intro s
  have h1 := (noTok_char buf ',') s
  refine ⟨by rw [h1.1], fun ht hs => ?_⟩
  rw [char_run] at hs ⊢
  cases h : buf.get? s.pos with
  | none =>
      rw [h] at hs
      exact Bool.noConfusion hs
  | some c' =>
      rw [h] at hs
      dsimp only at hs ⊢
      by_cases he : c' = ','
      · rw [if_pos he]
        show tiled buf s.tokens 0 (s.pos + 1)
        subst he
        exact tiled_gap ht (gapOnly_single h)
      · rw [if_neg he] at hs
        exact Bool.noConfusion hs

theorem selGo_spec {buf : List Char} :
    ∀ (rs : List (M α)) (st : ParseState) (toks0 : List Token) (p0 : ℕ) (s : Parser),
      (∀ r ∈ rs, TPresS buf r) →
      s.tokens = toks0 → s.pos = p0 →
      st.len_toks = toks0.length → st.pos = p0 →
      (toks0 <+: (selGo rs st s).2.tokens ∧
        (tiled buf toks0 0 p0 →
          tiled buf (selGo rs st s).2.tokens 0 (selGo rs st s).2.pos))
  | [], st, toks0, p0, s, _, htk, hp, _, _ => by
      subst htk
      subst hp
      exact ⟨List.prefix_rfl, fun ht => ht⟩
  | r :: rs, st, toks0, p0, s, hall, htk, hp, hst, hsp => by
      have h1 := hall r (List.mem_cons_self r rs) s
      simp only [selGo]
      cases hrs : r.run s with
      | mk a? s' =>
        rw [hrs] at h1
        cases a? with
        | some a =>
            refine ⟨htk ▸ h1.1, fun ht => ?_⟩
            have ht' : tiled buf s.tokens 0 s.pos := by
              rw [htk, hp]
              exact ht
            exact h1.2 ht' rfl
        | none =>
            have hpre : toks0 <+: s'.tokens := htk ▸ h1.1
            have htake : s'.tokens.take toks0.length = toks0 :=
              (List.prefix_iff_eq_take.mp hpre).symm
            have hrbt : (rollbackFun st s').tokens = toks0 := by
              show s'.tokens.take st.len_toks = toks0
              rw [hst]
              exact htake
            have hrbp : (rollbackFun st s').pos = p0 := hsp
            exact selGo_spec rs st toks0 p0 (rollbackFun st s')
              (fun r hr => hall r (List.mem_cons_of_mem _ hr)) hrbt hrbp hst hsp

theorem tpresU_select {buf : List Char} (rs : List (M α))
    (h : ∀ r ∈ rs, TPresS buf r) : TPresU buf (select rs) := by
  intro s
  rw [run_select]
  have hz := selGo_spec rs (saveOf s) s.tokens s.pos s h rfl rfl rfl rfl
  exact ⟨hz.1, hz.2⟩

theorem lpGo_spec {buf : List Char} {rule : M Node} (h : TPresU buf rule)
    (key : ℕ) (startPos : ℕ) :
    ∀ (fuel : ℕ) (saved : Option Node) (lp : ℕ) (s : Parser),
      (s.tokens <+: (lpGo key rule startPos fuel saved lp s).2.tokens ∧
        (tiled buf s.tokens 0 s.pos →
          tiled buf (lpGo key rule startPos fuel saved lp s).2.tokens 0
            (lpGo key rule startPos fuel saved lp s).2.pos))
  | 0, saved, lp, s => ⟨List.prefix_rfl, fun ht => ht⟩
  | fuel + 1, saved, lp, s => by
      have h1 := h s
      simp only [lpGo]
      cases hrs : rule.run s with
      | mk a? s' =>
        rw [hrs] at h1
        cases a? with
        | none => exact h1
        | some res =>
            dsimp only
            by_cases hle : s'.pos - startPos ≤ lp
            · rw [if_pos hle]
              exact h1
            · rw [if_neg hle]
              have ih := lpGo_spec h key startPos fuel (some res) (s'.pos - startPos)
                { s' with memos := s'.memos.set key (some (some res)) }
              exact ⟨h1.1.trans ih.1, fun ht => ih.2 (h1.2 ht)⟩

theorem tpresU_leftpoline {buf : List Char} {rule : M Node} (key : ℕ)
    (h : TPresU buf rule) : TPresU buf (leftpoline buf key rule) := by
  intro s
  rw [run_leftpoline]
  exact lpGo_spec h key s.pos (buf.length + 2) none 0 s

theorem push_tok_fail_tokens {buf : List Char} (tag : Tok) {r : M α}
    (h : NoTok buf r) (s : Parser) :
    ((push_tok tag r).run s).1 = none → ((push_tok tag r).run s).2.tokens = s.tokens := by
  rw [run_push_tok]
  have h1 := h s
  cases hrs : r.run s with
  | mk a? s' =>
    rw [hrs] at h1
    cases a? with
    | none => exact fun _ => h1.1
    | some a =>
        dsimp only
        by_cases hlt : s'.pos < s.pos
        · rw [if_pos hlt]
          exact fun _ => h1.1
        · rw [if_neg hlt]
          exact fun hcon => Option.noConfusion hcon

theorem tpresU_maybe_ws (buf : List Char) : TPresU buf (maybe_ws buf) := by
  intro s
  unfold maybe_ws ws
  rw [run_maybe]
  have hws := tpresS_push_tok .WS (noTok_match_ws buf) s
  have hft := push_tok_fail_tokens .WS (noTok_match_ws buf) s
  cases hrs : (push_tok Tok.WS (match_ws buf)).run s with
  | mk a? s' =>
    rw [hrs] at hws hft
    cases a? with
    | some a => exact ⟨hws.1, fun ht => hws.2 ht rfl⟩
    | none =>
        have htk : s'.tokens = s.tokens := hft rfl
        refine ⟨?_, fun ht => ?_⟩
        · show s.tokens <+: s'.tokens
          rw [htk]
        · show tiled buf s'.tokens 0 s.pos
          rw [htk]
          exact ht

theorem tpresS_pure {buf : List Char} (a : α) : TPresS buf (pure a : M α) :=
  tpresU_tpresS (inert_tpresU (inert_pure a))

theorem tpresS_inert {buf : List Char} {r : M α} (h : Inert r) : TPresS buf r :=
  tpresU_tpresS (inert_tpresU h)

theorem inert_ite {c : Prop} [Decidable c] {r1 r2 : M α}
    (h1 : Inert r1) (h2 : Inert r2) : Inert (if c then r1 else r2) := by
  by_cases h : c
  · rw [if_pos h]
    exact h1
  · rw [if_neg h]
    exact h2

theorem inert_cons_list :
    ∀ (fuel : ℕ) (lnode : Node) (li ri : NodeId), Inert (cons_list fuel lnode li ri)
  | 0, _, _, _ => inert_mfail
  | fuel + 1, lnode, li, ri => by
      cases lnode with
      | Zero => exact inert_pure _
      | Leaf v => exact inert_pure _
      | BinOp op l r => exact inert_pure _
      | UniOp op r => exact inert_pure _
      | Index r c => exact inert_pure _
      | Addr r c => exact inert_pure _
      | List elems len link =>
          simp only [cons_list]
          refine inert_ite ?_ ?_
          · exact inert_bind (inert_push_node _) (fun empty =>
              inert_bind (inert_cons_list fuel _ empty ri) (fun lk =>
                inert_bind (inert_push_node lk) (fun lkId => inert_pure _)))
          · cases link with
            | some l =>
                exact inert_bind (inert_get_node l) (fun orig =>
                  inert_bind (inert_cons_list fuel orig l ri) (fun nl =>
                    inert_bind (inert_push_node nl) (fun nlId => inert_pure _)))
            | none => exact inert_ite (inert_pure _) inert_mfail

theorem tpresS_r_num (buf : List Char) : TPresS buf (r_num buf) := by
  unfold r_num
  refine tpresS_bind (tpresS_yield_tok .Num (noTok_select _ ?_)) (fun tok =>
    tpresS_bind (tpresS_inert (inert_push_value _)) (fun vid => tpresS_pure _))
  intro r hr
  simp only [List.mem_cons, List.not_mem_nil, or_false] at hr
  rcases hr with rfl | rfl
  · exact noTok_match_num_zero buf
  · exact noTok_match_num_nonzero buf

theorem tpresS_r_string (buf : List Char) : TPresS buf (r_string buf) := by
  unfold r_string
  refine tpresS_bind (tpresS_yield_tok .Str (noTok_select _ ?_)) (fun tok =>
    tpresS_bind (tpresS_inert (inert_push_value _)) (fun vid => tpresS_pure _))
  intro r hr
  simp only [List.mem_cons, List.not_mem_nil, or_false] at hr
  rcases hr with rfl | rfl
  · exact noTok_match_string buf _
  · exact noTok_match_string buf _

theorem tpresS_match_bool (buf : List Char) (needle : String) (value : Bool) :
    TPresS buf (match_bool buf needle value) := by
  unfold match_bool
  exact tpresS_bind (tpresS_yield_tok .KW (noTok_string buf needle)) (fun _ =>
    tpresS_bind (tpresS_inert (inert_push_value _)) (fun vid => tpresS_pure _))

theorem tpresS_r_bool (buf : List Char) : TPresS buf (r_bool buf) := by
  unfold r_bool
  refine tpresU_tpresS (tpresU_select _ ?_)
  intro r hr
  simp only [List.mem_cons, List.not_mem_nil, or_false] at hr
  rcases hr with rfl | rfl
  · unfold r_true
    exact tpresS_match_bool buf "true" true
  · unfold r_false
    exact tpresS_match_bool buf "false" false

theorem tpresS_r_term_sym (buf : List Char) : TPresS buf (r_term_sym buf) := by
  unfold r_term_sym
  exact tpresS_bind (tpresS_yield_tok .Sym (noTok_one_or_more _ (noTok_cls_caseins buf _)))
    (fun tok => tpresS_bind (tpresS_inert (inert_push_value _)) (fun vid => tpresS_pure _))

theorem tpresS_r_term_paren (buf : List Char) {re : M Node} (hre : TPresS buf re) :
    TPresS buf (r_term_paren buf re) := by
  unfold r_term_paren match_lpar match_rpar
  exact tpresS_bind (tpresS_push_tok .LPar (noTok_char buf _)) (fun _ =>
    tpresS_bind hre (fun expr =>
      tpresS_bind (tpresS_push_tok .RPar (noTok_char buf _)) (fun _ => tpresS_pure _)))

theorem tpresU_r_term (buf : List Char) {re : M Node} (hre : TPresS buf re) :
    TPresU buf (r_term buf re) := by
  unfold r_term
  refine tpresU_select _ ?_
  intro r hr
  simp only [List.mem_cons, List.not_mem_nil, or_false] at hr
  rcases hr with rfl | rfl | rfl
  · unfold r_term_literal
    refine tpresU_tpresS (tpresU_select _ ?_)
    intro r hr
    simp only [List.mem_cons, List.not_mem_nil, or_false] at hr
    rcases hr with rfl | rfl | rfl
    · exact tpresS_r_num buf
    · exact tpresS_r_string buf
    · exact tpresS_r_bool buf
  · exact tpresS_r_term_sym buf
  · exact tpresS_r_term_paren buf hre

theorem tpresS_match_binop (buf : List Char) : TPresS buf (match_binop buf) := by
  unfold match_binop
  refine tpresS_push_tok .Op (noTok_select _ ?_)
  intro r hr
  simp only [List.mem_cons, List.not_mem_nil, or_false] at hr
  rcases hr with rfl | rfl | rfl | rfl
  · unfold match_plus
    exact noTok_char buf _
  · unfold match_minus
    exact noTok_char buf _
  · unfold match_star
    exact noTok_char buf _
  · unfold match_fslash
    exact noTok_char buf _

theorem tpresS_r_expr_binop (buf : List Char) {re : M Node} (hre : TPresS buf re) :
    TPresS buf (r_expr_binop buf re) := by
  unfold r_expr_binop
  exact tpresS_bind (tpresU_tpresS (tpresU_r_term buf hre)) (fun lnode =>
    tpresS_bind (tpresS_inert (inert_push_node _)) (fun left_id =>
      tpresS_bind (tpresU_tpresS (tpresU_maybe_ws buf)) (fun _ =>
        tpresS_bind (tpresS_match_binop buf) (fun op =>
          tpresS_bind (tpresU_tpresS (tpresU_maybe_ws buf)) (fun _ =>
            tpresS_bind hre (fun rnode =>
              tpresS_bind (tpresS_inert (inert_push_node _)) (fun right_id =>
                tpresS_pure _)))))))

theorem tpresS_match_list_left_rec (buf : List Char) {re : M Node} (hre : TPresS buf re) :
    TPresS buf (match_list_left_rec buf re) := by
  unfold match_list_left_rec
  exact tpresS_bind (tpresS_inert (inert_left _)) (fun lnode =>
    tpresS_bind (tpresS_inert (inert_push_node _)) (fun left_id =>
      tpresS_bind (tpresU_tpresS (tpresU_maybe_ws buf)) (fun _ =>
        tpresS_bind (tpresS_char_comma buf) (fun _ =>
          tpresS_bind (tpresU_tpresS (tpresU_maybe_ws buf)) (fun _ =>
            tpresS_bind (tpresU_tpresS (tpresU_r_term buf hre)) (fun rnode =>
              tpresS_bind (tpresS_inert (inert_push_node _)) (fun right_id =>
                tpresS_bind (tpresS_inert inert_getS) (fun st =>
                  tpresS_inert (inert_cons_list _ _ _ _)))))))))

theorem tpresS_match_compound (buf : List Char) {re : M Node} (hre : TPresS buf re)
    (startC : Char) (startT : Tok) (endC : Char) (endT : Tok)
    (cb : NodeId → NodeId → Node) :
    TPresS buf (match_compound buf re startC startT endC endT cb) := by
  unfold match_compound
  refine tpresS_bind (tpresS_push_tok startT (noTok_char buf startC)) (fun _ =>
    tpresS_bind (tpresU_tpresS (tpresU_maybe_ws buf)) (fun _ =>
      tpresS_bind hre (fun inner =>
        tpresS_bind ?_ (fun rc =>
          tpresS_bind (tpresS_push_tok endT (noTok_char buf endC)) (fun _ =>
            tpresS_pure _)))))
  cases inner with
  | List elems len link => exact tpresS_pure _
  | Zero => exact tpresS_bind (tpresS_inert (inert_push_node _)) (fun r => tpresS_pure _)
  | Leaf v => exact tpresS_bind (tpresS_inert (inert_push_node _)) (fun r => tpresS_pure _)
  | BinOp op l r =>
      exact tpresS_bind (tpresS_inert (inert_push_node _)) (fun r => tpresS_pure _)
  | UniOp op r => exact tpresS_bind (tpresS_inert (inert_push_node _)) (fun r => tpresS_pure _)
  | Index r c => exact tpresS_bind (tpresS_inert (inert_push_node _)) (fun r => tpresS_pure _)
  | Addr r c => exact tpresS_bind (tpresS_inert (inert_push_node _)) (fun r => tpresS_pure _)

theorem tpresU_matchExpr (buf : List Char) {re : M Node} (hre : TPresS buf re) :
    TPresU buf (matchExpr buf re) := by
  unfold matchExpr
  refine tpresU_bind (tpresU_maybe_ws buf) (fun _ => ?_)
  refine tpresU_bind (tpresU_select _ ?_) (fun res =>
    tpresU_bind (tpresU_maybe_ws buf) (fun _ => inert_tpresU (inert_pure _)))
  intro r hr
  simp only [List.mem_cons, List.not_mem_nil, or_false] at hr
  rcases hr with rfl | rfl | rfl | rfl | rfl | rfl
  · exact tpresS_r_expr_binop buf hre
  · unfold r_expr_list
    exact tpresS_match_list_left_rec buf hre
  · exact tpresU_tpresS (tpresU_r_term buf hre)
  · unfold r_expr_lookup
    exact tpresS_r_term_sym buf
  · unfold r_expr_index
    exact tpresS_match_compound buf hre _ _ _ _ _
  · unfold r_expr_addr
    exact tpresS_match_compound buf hre _ _ _ _ _

theorem tpresU_r_expr (buf : List Char) : ∀ (n : ℕ), TPresU buf (r_expr buf n)
  | 0 => inert_tpresU inert_mfail
  | n + 1 => by
      unfold r_expr
      exact tpresU_leftpoline _ (tpresU_matchExpr buf (tpresU_tpresS (tpresU_r_expr buf n)))

theorem parse_tiled (input : String) :
    tiled input.data (Parser.parse input).2.tokens 0 (Parser.parse input).2.pos := by
  have h := (tpresU_r_expr input.data (input.data.length + 2)) Parser.init
  have ht0 : tiled input.data Parser.init.tokens 0 Parser.init.pos := by
    show gapOnly input.data 0 0
    exact gapOnly_refl _ 0 (Nat.zero_le _)
  exact h.2 ht0

/-- C4 counterexample: scanning `"1,2"` succeeds and recognises the whole
input (final cursor 3), but returns the token texts `"1"`, `"2"` — the
separator comma is consumed by a bare `char` call in
`match_list_left_rec` and never recorded as a token — so the
separator-free concatenation is `"12"`, which is not the recognised
prefix `"1,2"`. -/
theorem C4_counterexample :
    (Parser.parse "1,2").1.isSome = true ∧
    (Parser.parse "1,2").2.pos = 3 ∧
    (Parser.scan "1,2").1 = ["1", "2"] ∧
    String.join (Parser.scan "1,2").1 = "12" ∧
    "1,2".data.take (Parser.parse "1,2").2.pos = "1,2".data ∧
    ("12" : String) ≠ ("1,2" : String) :=
  ⟨rfl, rfl, rfl, rfl, rfl, by decide⟩

/-- C4 (amended): when the parse succeeds, `Parser::scan` returns the
texts of the recorded tokens in order, and the recognised prefix of the
input equals those texts joined in order with the consumed comma
separators reinserted in the gaps (`joinGapped`) — not their
separator-free concatenation. -/
theorem C4_tokens_tile (input : String) (n : Node) (p : Parser)
    (h : Parser.parse input = (some n, p)) :
    (Parser.scan input).1 = p.tokens.map (tok_value input.data) ∧
    input.data.take p.pos = joinGapped input.data p.tokens 0 p.pos := by
  constructor
  · unfold Parser.scan
    rw [h]
    rfl
  · have ht := parse_tiled input
    rw [h] at ht
    have hd := tiled_decomp ht
    simpa using hd

/-- C4 witness: the amended statement at the concrete input `"1,2"`. -/
theorem C4_tokens_tile_witness :
    (Parser.scan "1,2").1 = c4P.tokens.map (tok_value "1,2".data) ∧
    "1,2".data.take c4P.pos = joinGapped "1,2".data c4P.tokens 0 c4P.pos :=
  C4_tokens_tile "1,2" c4N c4P rfl

end Valuator
